import Mathlib

/-!
Verification of the rsbdd ROBDD engine and formula front-end.

The definitions below are a shallow embedding of the Rust sources:
`src/bdd.rs` (node type, hash-consed environment, apply algorithms,
quantification, cardinality, fixed point, model extraction, inference),
`src/truth_table.rs` (truth-value parsing), and `src/parser.rs`
(symbolic AST, substitution, free variables, tokenizer keyword table and
recursive-descent parser).  Symbols are represented by their integer ids,
because `NamedSymbol` equality, hashing and ordering are defined solely by
`id`.  Rust handles (`Arc<BDD<S>>`) are represented by the node trees
themselves: the hash-consing table maps structurally equal nodes to one
handle, so handle equality in one environment coincides with structural
equality of the trees.
-/

namespace Rsbdd

/-- Embedding of `enum BDD<Symbol>` (bdd.rs, lines 71-77).  `Choice t s f`
is `Choice(true-subtree, symbol, false-subtree)`. -/
inductive BDD where
  | False : BDD
  | True : BDD
  | Choice : BDD → Nat → BDD → BDD
deriving DecidableEq

/-- `BDDEnv::simplify` (bdd.rs 571-577): removes a choice node if both
subtrees are equivalent. -/
def simplify (a : BDD) : BDD :=
  match a with
  | .Choice t _ f => if t = f then t else a
  | _ => a

/-- Value of the handle returned by `BDDEnv::mk_choice` (bdd.rs 221-241):
the stored node is the early simplification of the choice; the table lookup
returns a handle structurally equal to it. -/
def mk_choice (t : BDD) (s : Nat) (f : BDD) : BDD :=
  simplify (.Choice t s f)

/-- `BDDEnv::mk_const` (bdd.rs 244-255): the requested terminal. -/
def mk_const (v : Bool) : BDD :=
  if v then .True else .False

/-- `BDDEnv::and` (bdd.rs 274-305).  The Rust match arms are translated in
order; the two-`Choice` case distinguishes `va < vb`, `vb < va`, `va == vb`
exactly as the source guards do, so the final `panic!` arm is unreachable. -/
def and : BDD → BDD → BDD
  | .False, _ => mk_const false
  | _, .False => mk_const false
  | .True, b => b
  | a, .True => a
  | .Choice t1 va f1, .Choice t2 vb f2 =>
    if va < vb then
      mk_choice (and t1 (.Choice t2 vb f2)) va (and f1 (.Choice t2 vb f2))
    else if vb < va then
      mk_choice (and t2 (.Choice t1 va f1)) vb (and f2 (.Choice t1 va f1))
    else
      mk_choice (and t1 t2) va (and f1 f2)
termination_by a b => sizeOf a + sizeOf b

/-- `BDDEnv::or` (bdd.rs 308-340). -/
def or : BDD → BDD → BDD
  | .True, _ => mk_const true
  | _, .True => mk_const true
  | .False, b => b
  | a, .False => a
  | .Choice t1 va f1, .Choice t2 vb f2 =>
    if va < vb then
      mk_choice (or t1 (.Choice t2 vb f2)) va (or f1 (.Choice t2 vb f2))
    else if vb < va then
      mk_choice (or t2 (.Choice t1 va f1)) vb (or f2 (.Choice t1 va f1))
    else
      mk_choice (or t1 t2) va (or f1 f2)
termination_by a b => sizeOf a + sizeOf b

/-- `BDDEnv::not` (bdd.rs 342-352): terminals map to the opposite terminal,
and a choice node rebuilds `mk_choice (not high) s (not low)`. -/
def not : BDD → BDD
  | .False => mk_const true
  | .True => mk_const false
  | .Choice t va f => mk_choice (not t) va (not f)

/-- `BDDEnv::implies` (bdd.rs 354-356). -/
def implies (a b : BDD) : BDD :=
  or (not a) b

/-- `BDDEnv::ite` (bdd.rs 359-371); renamed from `ite` to avoid clashing
with the built-in if-then-else function. -/
def iteB (a b c : BDD) : BDD :=
  and (implies a b) (implies (not a) c)

/-- `BDDEnv::eq` (bdd.rs 374-376). -/
def eq (a b : BDD) : BDD :=
  and (implies a b) (implies b a)

/-- `BDDEnv::xor` (bdd.rs 379-384). -/
def xor (a b : BDD) : BDD :=
  or (and (not a) b) (and a (not b))

/-- `BDDEnv::nor` (bdd.rs 387-389). -/
def nor (a b : BDD) : BDD :=
  and (not a) (not b)

/-- `BDDEnv::nand` (bdd.rs 392-394). -/
def nand (a b : BDD) : BDD :=
  not (and a b)

/-- `BDDEnv::var` (bdd.rs 397-399). -/
def var (s : Nat) : BDD :=
  mk_choice (mk_const true) s (mk_const false)

/-- `BDDEnv::cmp_count` (bdd.rs 401-420): counting recursion shared by the
cardinality operators; `n` is the running `i64` bound. -/
def cmp_count (branches : List BDD) (n : Int) (cmp : Int → Bool) : BDD :=
  match branches with
  | [] => mk_const (cmp n)
  | first :: remainder =>
    iteB first (cmp_count remainder (n - 1) cmp) (cmp_count remainder n cmp)

/-- `BDDEnv::aln` (bdd.rs 423-425): at least `n` of the branches are true. -/
def aln (branches : List BDD) (n : Int) : BDD :=
  cmp_count branches n (fun m => m ≤ 0)

/-- `BDDEnv::amn` (bdd.rs 428-430): at most `n` of the branches are true. -/
def amn (branches : List BDD) (n : Int) : BDD :=
  cmp_count branches n (fun m => m ≥ 0)

/-- `BDDEnv::exn` (bdd.rs 433-435): exactly `n` of the branches are true. -/
def exn (branches : List BDD) (n : Int) : BDD :=
  cmp_count branches n (fun m => m = 0)

/-- `BDDEnv::exists_impl` (bdd.rs 509-519): existential quantification over a
single variable. -/
def exists_impl (s : Nat) (b : BDD) : BDD :=
  match b with
  | .False => .False
  | .True => .True
  | .Choice t v f =>
    if v = s then or t f
    else mk_choice (exists_impl s t) v (exists_impl s f)

/-- `BDDEnv::exists` (bdd.rs 497-506): fold `exists_impl` over the list;
renamed from `exists`, which is reserved in Lean. -/
def existsQ (s : List Nat) (b : BDD) : BDD :=
  match s with
  | [] => b
  | first :: remainder => exists_impl first (existsQ remainder b)

/-- `BDDEnv::all` (bdd.rs 522-524). -/
def all (s : List Nat) (b : BDD) : BDD :=
  not (existsQ s (not b))

/-- `BDDEnv::fp` (bdd.rs 527-540) iterates the transformer until the iterate
repeats; the Rust loop can diverge, so the embedding takes explicit fuel and
returns the current iterate when fuel runs out. -/
def fp : Nat → BDD → (BDD → BDD) → BDD
  | 0, a, _ => a
  | fuel + 1, a, t => if t a = a then a else fp fuel (t a) t

/-- `BDDEnv::model` (bdd.rs 542-557): extract one satisfying conjunction,
preferring the high branch. -/
def model (a : BDD) : BDD :=
  match a with
  | .Choice t v f =>
    let lhs := model t
    let rhs := model f
    if lhs ≠ mk_const false then and lhs (var v)
    else if rhs ≠ mk_const false then and (not (var v)) rhs
    else mk_const false
  | _ => a

/-- `BDDEnv::infer` (bdd.rs 562-569): whether variable `b` is bound by `a`,
and to which truth value. -/
def infer (a : BDD) (b : Nat) : Bool × Bool :=
  match implies a (var b) with
  | .Choice _ _ _ => (false, false)
  | .True => (true, true)
  | .False => (true, false)

/-- `BDDEnv::node_list` (bdd.rs 202-217): all handles reachable from a root,
in-order. -/
def node_list (root : BDD) : List BDD :=
  match root with
  | .Choice l s r => node_list l ++ [.Choice l s r] ++ node_list r
  | t => [t]

/-- Truth-value semantics of a BDD under an assignment of the variables. -/
def eval (σ : Nat → Bool) : BDD → Bool
  | .False => false
  | .True => true
  | .Choice t s f => if σ s then eval σ t else eval σ f

/-- Every `Choice` reachable from the tree tests a variable with id
strictly greater than `k` (the ordering part of the §3 invariants). -/
def above (k : Nat) : BDD → Bool
  | .Choice t s f => decide (k < s) && above k t && above k f
  | _ => true

/-- The §3 canonicalization invariants, as a recursive predicate: every
reachable `Choice t s f` has `t ≠ f` and tests only variables above `s`
in its subtrees. -/
def inv : BDD → Bool
  | .Choice t s f => decide (t ≠ f) && above s t && above s f && inv t && inv f
  | _ => true

/-- The per-handle property of spec §8: if the handle is a `Choice` then it
has distinct children and every `Choice` under either child tests a strictly
greater variable. -/
def choiceOk (h : BDD) : Prop :=
  ∀ t s f, h = BDD.Choice t s f → t ≠ f ∧ above s t = true ∧ above s f = true

/-- The node table of `BDDEnv` (bdd.rs 152-155, 262-271): the set of stored
nodes, with the two terminals inserted at construction. -/
structure BDDEnv where
  nodes : List BDD

/-- `BDDEnv::new` (bdd.rs 262-271). -/
def BDDEnv.new : BDDEnv :=
  ⟨[.True, .False]⟩

/-- Stateful `BDDEnv::mk_choice` (bdd.rs 221-241): simplify, then look the
node up in the table, inserting it only when absent; the first component is
the returned handle, the second the updated environment. -/
def BDDEnv.mk_choice (env : BDDEnv) (t : BDD) (s : Nat) (f : BDD) :
    BDD × BDDEnv :=
  let ins := simplify (.Choice t s f)
  if ins ∈ env.nodes then (ins, env) else (ins, ⟨ins :: env.nodes⟩)

/-- Number of branches a given assignment satisfies; used to state the
semantics of the counting recursion `cmp_count`. -/
def trueCount (σ : Nat → Bool) (branches : List BDD) : Int :=
  ((branches.filter (fun f => eval σ f)).length : Int)

/-- `TruthTableEntry` (truth_table.rs 18-25; duplicated in bdd.rs 93-98). -/
inductive TruthTableEntry where
  | True
  | False
  | Any
deriving DecidableEq

/-- `TruthTableEntry::matches` (truth_table.rs 32-38). -/
def TruthTableEntry.matches : TruthTableEntry → String → Bool
  | .True, s => s == "true" || s == "True" || s == "t" || s == "T" || s == "1"
  | .False, s => s == "false" || s == "False" || s == "f" || s == "F" || s == "0"
  | .Any, s => s == "any" || s == "Any" || s == "a" || s == "A" || s == "*"

/-- `TruthTableEntry::variants` (truth_table.rs 28-30). -/
def TruthTableEntry.variants : List TruthTableEntry :=
  [.True, .False, .Any]

/-- `TruthTableEntry::from_str` (truth_table.rs 63-73): the first variant
whose surface forms match; `none` models the parse error. -/
def TruthTableEntry.from_str (s : String) : Option TruthTableEntry :=
  TruthTableEntry.variants.find? (fun variant => variant.matches s)

/-- The older duplicate `TruthTableEntry::from_str` in bdd.rs 116-125, which
has no `"*"` alternative in its `Any` arm. -/
def TruthTableEntry.from_str_bdd (s : String) : Option TruthTableEntry :=
  if s == "true" || s == "True" || s == "t" || s == "T" || s == "1" then some .True
  else if s == "false" || s == "False" || s == "f" || s == "F" || s == "0" then some .False
  else if s == "any" || s == "Any" || s == "a" || s == "A" then some .Any
  else none

/-- `NamedSymbol` (symbols.rs 12-15): equality, hashing and ordering are
defined solely by `id`, so every comparison below compares ids. -/
structure NamedSymbol where
  name : String
  id : Nat
deriving DecidableEq

/-- `BinaryOperator` (parser.rs 58-69). -/
inductive BinaryOperator where
  | And | Or | Xor | Nor | Nand | Implies | ImpliesInv | Iff | Equals
deriving DecidableEq

/-- `CountableOperator` (parser.rs 71-78). -/
inductive CountableOperator where
  | AtMost | LessThan | AtLeast | MoreThan | Exactly
deriving DecidableEq

/-- `QuantifierType` (parser.rs 80-84). -/
inductive QuantifierType where
  | Exists | Forall
deriving DecidableEq

/-- `DomainConstant` (parser.rs 86-90). -/
inductive DomainConstant where
  | Terminal : String → DomainConstant
  | Application : String → DomainConstant → DomainConstant
deriving DecidableEq

/-- `SymbolicBDD` (parser.rs 101-118), the symbolic AST.  `Summation` holds
the variable names (its declared field is `Vec<String>`). -/
inductive SymbolicBDD where
  | False
  | True
  | Var : NamedSymbol → SymbolicBDD
  | Not : SymbolicBDD → SymbolicBDD
  | Quantifier : QuantifierType → List NamedSymbol → SymbolicBDD → SymbolicBDD
  | CountableConst : CountableOperator → List SymbolicBDD → Nat → SymbolicBDD
  | CountableVariable : CountableOperator → List SymbolicBDD → List SymbolicBDD → SymbolicBDD
  | FixedPoint : NamedSymbol → Bool → SymbolicBDD → SymbolicBDD
  | Ite : SymbolicBDD → SymbolicBDD → SymbolicBDD → SymbolicBDD
  | BinaryOp : BinaryOperator → SymbolicBDD → SymbolicBDD → SymbolicBDD
  | Summation : List String → SymbolicBDD → SymbolicBDD
  | RuleApplication : DomainConstant → SymbolicBDD
  | RewriteRule : DomainConstant → SymbolicBDD → SymbolicBDD
  | Subtree : BDD → SymbolicBDD

/-- Short-circuiting disjunction over possibly-panicking computations:
Rust `a || b` evaluates `b` only when `a` is `false`; `none` models a
panic. -/
def scOr (a : Option Bool) (b : Unit → Option Bool) : Option Bool :=
  match a with
  | none => none
  | some true => some true
  | some false => b ()

mutual

/-- `SymbolicBDD::var_is_free` (parser.rs 351-374).  `none` models the
`unimplemented!()` panic on `Subtree`.  The `Summation`, `RuleApplication`
and `RewriteRule` arms are not present in the source match (which is
non-exhaustive in the snapshot); they are modelled as the natural recursion
(`RuleApplication` contains no variables). -/
def var_is_free : SymbolicBDD → NamedSymbol → Option Bool
  | .Var v, w => some (v.id == w.id)
  | .Quantifier _ vars f, w =>
    if vars.any (fun v => v.id == w.id) then some false else var_is_free f w
  | .Ite a b c, w =>
    scOr (var_is_free a w) (fun _ =>
      scOr (var_is_free b w) (fun _ => var_is_free c w))
  | .Not f, w => var_is_free f w
  | .BinaryOp _ a b, w => scOr (var_is_free a w) (fun _ => var_is_free b w)
  | .CountableConst _ sub _, w => var_is_free_any sub w
  | .CountableVariable _ l r, w =>
    scOr (var_is_free_any l w) (fun _ => var_is_free_any r w)
  | .FixedPoint v _ f, w =>
    if v.id == w.id then some false else var_is_free f w
  | .Subtree _, _ => none
  | .True, _ => some false
  | .False, _ => some false
  | .Summation _ f, w => var_is_free f w
  | .RuleApplication _, _ => some false
  | .RewriteRule _ f, w => var_is_free f w

/-- The short-circuiting `Iterator::any` over `var_is_free` used by the
countable arms. -/
def var_is_free_any : List SymbolicBDD → NamedSymbol → Option Bool
  | [], _ => some false
  | f :: rest, w => scOr (var_is_free f w) (fun _ => var_is_free_any rest w)

end

mutual

/-- `SymbolicBDD::replace_var` (parser.rs 296-348): substitute `replacement`
for the fixed-point variable `var`, stopping at quantifiers and fixed points
that rebind it.  The `Summation`, `RuleApplication` and `RewriteRule` arms
are absent from the source match; modelled as the natural recursion
(`RuleApplication` contains no sub-formula). -/
def replace_var (self : SymbolicBDD) (var : NamedSymbol)
    (replacement : SymbolicBDD) : SymbolicBDD :=
  match self with
  | .Var v => if v.id == var.id then replacement else .Var v
  | .Quantifier q v f =>
    if v.any (fun w => w.id == var.id) then .Quantifier q v f
    else .Quantifier q v (replace_var f var replacement)
  | .FixedPoint v i f =>
    if v.id == var.id then .FixedPoint v i f
    else .FixedPoint v i (replace_var f var replacement)
  | .Ite a b c =>
    .Ite (replace_var a var replacement) (replace_var b var replacement)
      (replace_var c var replacement)
  | .Not f => .Not (replace_var f var replacement)
  | .BinaryOp op l r =>
    .BinaryOp op (replace_var l var replacement) (replace_var r var replacement)
  | .CountableConst op n sz =>
    .CountableConst op (replace_var_list n var replacement) sz
  | .CountableVariable op l r =>
    .CountableVariable op (replace_var_list l var replacement)
      (replace_var_list r var replacement)
  | .True => .True
  | .False => .False
  | .Subtree t => .Subtree t
  | .Summation vs f => .Summation vs (replace_var f var replacement)
  | .RuleApplication d => .RuleApplication d
  | .RewriteRule d f => .RewriteRule d (replace_var f var replacement)

/-- The elementwise `iter().map(|v| v.replace_var(..)).collect()` used by
the countable arms of `replace_var`. -/
def replace_var_list (l : List SymbolicBDD) (var : NamedSymbol)
    (replacement : SymbolicBDD) : List SymbolicBDD :=
  match l with
  | [] => []
  | f :: rest =>
    replace_var f var replacement :: replace_var_list rest var replacement

end

mutual

/-- Total free-occurrence predicate used to state capture avoidance: it
agrees with `var_is_free` wherever the latter is defined, and a `Subtree`
leaf contains no variable occurrences. -/
def freeOcc : SymbolicBDD → NamedSymbol → Bool
  | .Var v, w => v.id == w.id
  | .Quantifier _ vars f, w =>
    if vars.any (fun v => v.id == w.id) then false else freeOcc f w
  | .Ite a b c, w => freeOcc a w || freeOcc b w || freeOcc c w
  | .Not f, w => freeOcc f w
  | .BinaryOp _ a b, w => freeOcc a w || freeOcc b w
  | .CountableConst _ sub _, w => freeOccAny sub w
  | .CountableVariable _ l r, w => freeOccAny l w || freeOccAny r w
  | .FixedPoint v _ f, w => if v.id == w.id then false else freeOcc f w
  | .Subtree _, _ => false
  | .True, _ => false
  | .False, _ => false
  | .Summation _ f, w => freeOcc f w
  | .RuleApplication _, _ => false
  | .RewriteRule _ f, w => freeOcc f w

def freeOccAny : List SymbolicBDD → NamedSymbol → Bool
  | [], _ => false
  | f :: rest, w => freeOcc f w || freeOccAny rest w

end

mutual

/-- The formula contains no `Subtree` leaf (such leaves are only created by
the fixed-point evaluator, never by the parser). -/
def noSubtree : SymbolicBDD → Bool
  | .Subtree _ => false
  | .Var _ => true
  | .True => true
  | .False => true
  | .Not f => noSubtree f
  | .Quantifier _ _ f => noSubtree f
  | .Ite a b c => noSubtree a && noSubtree b && noSubtree c
  | .BinaryOp _ a b => noSubtree a && noSubtree b
  | .CountableConst _ sub _ => noSubtreeAll sub
  | .CountableVariable _ l r => noSubtreeAll l && noSubtreeAll r
  | .FixedPoint _ _ f => noSubtree f
  | .Summation _ f => noSubtree f
  | .RuleApplication _ => true
  | .RewriteRule _ f => noSubtree f

def noSubtreeAll : List SymbolicBDD → Bool
  | [] => true
  | f :: rest => noSubtree f && noSubtreeAll rest

end

/-- `SymbolicBDDToken` (parser.rs 21-56); the identifier variant carries the
`NamedSymbol` assigned by the tokenizer. -/
inductive SymbolicBDDToken where
  | Ident : NamedSymbol → SymbolicBDDToken
  | Countable : Nat → SymbolicBDDToken
  | And | Or | Not | Xor | Nor | Nand | Implies | Rewrite | ImpliesInv | Iff
  | If | Then | Else | Exists | Forall | Sum | Eq | Geq | Gt | Lt
  | OpenParen | CloseParen | OpenSquare | CloseSquare | Comma
  | False | True | LFP | GFP | Hash | Eof
deriving DecidableEq

/-- The running state of `SymbolicBDD::tokenize` (parser.rs 728-737): the
name-to-id table and the id counter. -/
structure LexState where
  variable_indexes : List (String × Nat)
  var_id_counter : Nat

/-- The identifier branch of `SymbolicBDD::tokenize` (parser.rs 770-808):
how one identifier word is classified as a keyword token or as a variable
with a fresh or previously assigned id. -/
def tokenize_identifier (st : LexState) (w : String) :
    SymbolicBDDToken × LexState :=
  if w == "false" then (.False, st)
  else if w == "true" then (.True, st)
  else if w == "not" then (.Not, st)
  else if w == "and" then (.And, st)
  else if w == "or" then (.Or, st)
  else if w == "xor" then (.Xor, st)
  else if w == "nor" then (.Nor, st)
  else if w == "nand" then (.Nand, st)
  else if w == "implies" || w == "in" then (.Implies, st)
  else if w == "iff" || w == "eq" then (.Iff, st)
  else if w == "exists" then (.Exists, st)
  else if w == "forall" || w == "all" then (.Forall, st)
  else if w == "if" then (.If, st)
  else if w == "then" then (.Then, st)
  else if w == "else" then (.Else, st)
  else if w == "sum" then (.Sum, st)
  else if w == "gfp" || w == "nu" then (.GFP, st)
  else if w == "lfp" || w == "mu" then (.LFP, st)
  else
    match st.variable_indexes.lookup w with
    | some id => (.Ident ⟨w, id⟩, st)
    | none =>
      (.Ident ⟨w, st.var_id_counter⟩,
        ⟨(w, st.var_id_counter) :: st.variable_indexes, st.var_id_counter + 1⟩)

/-- Result of a parsing function: the parsed value on success and the
remaining token stream.  On failure the stream still reflects exactly the
tokens the Rust iterator had consumed before the error. -/
abbrev PResult (α : Type) := Option α × List SymbolicBDDToken

/-- Sequencing of parse steps: failures propagate together with the
consumed-so-far stream. -/
def pbind {α β : Type} (x : PResult α)
    (f : α → List SymbolicBDDToken → PResult β) : PResult β :=
  match x with
  | (some a, toks) => f a toks
  | (none, toks) => (none, toks)

/-- `expect` (parser.rs 830-840): consume one token and require it to equal
the expected one. -/
def expectTok (t : SymbolicBDDToken) : List SymbolicBDDToken → PResult Unit
  | [] => (none, [])
  | x :: rest => if x = t then (some (), rest) else (none, rest)

/-- `check` (parser.rs 842-853): peek at the next token without consuming. -/
def checkTok (t : SymbolicBDDToken) (toks : List SymbolicBDDToken) : Bool :=
  match toks with
  | x :: _ => x == t
  | [] => false

/-- `parse_variable_name` (parser.rs 558-568): consume one token, requiring
an identifier. -/
def parse_variable_name : List SymbolicBDDToken → PResult NamedSymbol
  | .Ident ns :: rest => (some ns, rest)
  | _ :: rest => (none, rest)
  | [] => (none, [])

/-- Modelled from the spec: `parse_ident` is called by the parser
(parser.rs 390, 452, 464, 575) but is defined nowhere under `src/`.
Following §4.4's token classes and the sibling `parse_variable_name`, it
consumes one token and yields its identifier symbol, failing on anything
else. -/
def parse_ident : List SymbolicBDDToken → PResult NamedSymbol
  | .Ident ns :: rest => (some ns, rest)
  | _ :: rest => (none, rest)
  | [] => (none, [])

/-- `parse_countable` (parser.rs 516-526): consume one token, requiring an
integer literal. -/
def parse_countable : List SymbolicBDDToken → PResult Nat
  | .Countable n :: rest => (some n, rest)
  | _ :: rest => (none, rest)
  | [] => (none, [])

/-- The countable-operator match inside `parse_countable_formula`
(parser.rs 531-543): consumes one token. -/
def parse_countable_operator : List SymbolicBDDToken → PResult CountableOperator
  | .Eq :: rest => (some .Exactly, rest)
  | .ImpliesInv :: rest => (some .AtMost, rest)
  | .Geq :: rest => (some .AtLeast, rest)
  | .Lt :: rest => (some .LessThan, rest)
  | .Gt :: rest => (some .MoreThan, rest)
  | _ :: rest => (none, rest)
  | [] => (none, [])

/-- `parse_binary_operator` (parser.rs 653-696): peek, then consume the
matched operator token. -/
def parse_binary_operator : List SymbolicBDDToken → PResult BinaryOperator
  | .And :: rest => (some .And, rest)
  | .Or :: rest => (some .Or, rest)
  | .Xor :: rest => (some .Xor, rest)
  | .Nor :: rest => (some .Nor, rest)
  | .Nand :: rest => (some .Nand, rest)
  | .Implies :: rest => (some .Implies, rest)
  | .ImpliesInv :: rest => (some .ImpliesInv, rest)
  | .Iff :: rest => (some .Iff, rest)
  | .Eq :: rest => (some .Equals, rest)
  | toks => (none, toks)

/-- The peek in `parse_sub_formula` (parser.rs 432-441): is the next token
one of the binary-operator tokens? -/
def peek_is_binary_operator (toks : List SymbolicBDDToken) : Bool :=
  match toks with
  | .And :: _ | .Or :: _ | .Xor :: _ | .Nor :: _ | .Nand :: _
  | .Implies :: _ | .ImpliesInv :: _ | .Iff :: _ | .Eq :: _ => true
  | _ => false

/-- `parse_variable_list` (parser.rs 570-590): identifiers separated by
commas, ending at the `#` delimiter (which is not consumed). -/
def parse_variable_list : Nat → List SymbolicBDDToken → PResult (List NamedSymbol)
  | 0, toks => (none, toks)
  | fuel + 1, toks =>
    if checkTok .Hash toks then (some [], toks)
    else
      pbind (parse_ident toks) fun v toks1 =>
      if checkTok .Comma toks1 then
        pbind (expectTok .Comma toks1) fun _ toks2 =>
        pbind (parse_variable_list fuel toks2) fun vs toks3 =>
        (some (v :: vs), toks3)
      else (some [v], toks1)

/-- `parse_domain_constant` (parser.rs 463-474). -/
def parse_domain_constant : Nat → List SymbolicBDDToken → PResult DomainConstant
  | 0, toks => (none, toks)
  | fuel + 1, toks =>
    pbind (parse_ident toks) fun constname toks1 =>
    if checkTok .OpenParen toks1 then
      pbind (expectTok .OpenParen toks1) fun _ toks2 =>
      pbind (parse_domain_constant fuel toks2) fun inside toks3 =>
      pbind (expectTok .CloseParen toks3) fun _ toks4 =>
      (some (.Application constname.name inside), toks4)
    else
      (some (.Terminal constname.name), toks1)

mutual

/-- `parse_formula` (parser.rs 288-294): a sub-formula followed by EOF.
All recursive-descent functions take fuel, decremented at each nested call;
the Rust recursion depth is bounded by the token count, so every actual
parse is reproduced at a large enough fuel. -/
def parse_formula : Nat → List SymbolicBDDToken → PResult SymbolicBDD
  | 0, toks => (none, toks)
  | fuel + 1, toks =>
    pbind (parse_sub_formula fuel toks) fun result toks1 =>
    pbind (expectTok .Eof toks1) fun _ toks2 =>
    (some result, toks2)

/-- `parse_sub_formula` (parser.rs 428-448). -/
def parse_sub_formula : Nat → List SymbolicBDDToken → PResult SymbolicBDD
  | 0, toks => (none, toks)
  | fuel + 1, toks =>
    pbind (parse_simple_sub_formula fuel toks) fun left toks1 =>
    if peek_is_binary_operator toks1 then
      pbind (parse_binary_operator toks1) fun op toks2 =>
      pbind (parse_sub_formula fuel toks2) fun right toks3 =>
      (some (.BinaryOp op left right), toks3)
    else (some left, toks1)

/-- `parse_simple_sub_formula` (parser.rs 376-426). -/
def parse_simple_sub_formula : Nat → List SymbolicBDDToken → PResult SymbolicBDD
  | 0, toks => (none, toks)
  | fuel + 1, toks =>
    match toks with
    | .OpenParen :: _ => parse_parentized_formula fuel toks
    | .OpenSquare :: _ => parse_countable_formula fuel toks
    | .False :: _ =>
      pbind (expectTok .False toks) fun _ toks1 => (some .False, toks1)
    | .True :: _ =>
      pbind (expectTok .True toks) fun _ toks1 => (some .True, toks1)
    | .Ident _ :: _ =>
      pbind (parse_ident toks) fun name toks1 =>
      if checkTok .OpenParen toks1 then
        pbind (expectTok .OpenParen toks1) fun _ toks2 =>
        pbind (parse_domain_constant fuel toks2) fun inside toks3 =>
        pbind (expectTok .CloseParen toks3) fun _ toks4 =>
        if checkTok .Rewrite toks4 then
          pbind (expectTok .Rewrite toks4) fun _ toks5 =>
          pbind (parse_sub_formula fuel toks5) fun inside2 toks6 =>
          (some (.RewriteRule (.Application name.name inside) inside2), toks6)
        else
          (some (.RuleApplication (.Application name.name inside)), toks4)
      else
        (some (.Var name), toks1)
    | .Not :: _ => parse_negation fuel toks
    | .Exists :: _ => parse_existence_quantifier fuel toks
    | .Forall :: _ => parse_universal_quantifier fuel toks
    | .GFP :: _ => parse_fixed_point fuel true toks
    | .LFP :: _ => parse_fixed_point fuel false toks
    | .If :: _ => parse_ite fuel toks
    | .Sum :: _ => parse_summation fuel toks
    | _ => (none, toks)

/-- `parse_negation` (parser.rs 698-711): try a simple sub-formula first;
on failure, fall back to a full sub-formula starting from wherever the
failed attempt left the token iterator. -/
def parse_negation : Nat → List SymbolicBDDToken → PResult SymbolicBDD
  | 0, toks => (none, toks)
  | fuel + 1, toks =>
    pbind (expectTok .Not toks) fun _ toks1 =>
    match parse_simple_sub_formula fuel toks1 with
    | (some sf, toks2) => (some (.Not sf), toks2)
    | (none, toks2) =>
      pbind (parse_sub_formula fuel toks2) fun f toks3 =>
      (some (.Not f), toks3)

/-- `parse_parentized_formula` (parser.rs 713-719). -/
def parse_parentized_formula : Nat → List SymbolicBDDToken → PResult SymbolicBDD
  | 0, toks => (none, toks)
  | fuel + 1, toks =>
    pbind (expectTok .OpenParen toks) fun _ toks1 =>
    pbind (parse_sub_formula fuel toks1) fun subform toks2 =>
    pbind (expectTok .CloseParen toks2) fun _ toks3 =>
    (some subform, toks3)

/-- `parse_countable_formula` (parser.rs 528-556). -/
def parse_countable_formula : Nat → List SymbolicBDDToken → PResult SymbolicBDD
  | 0, toks => (none, toks)
  | fuel + 1, toks =>
    pbind (parse_formula_list fuel toks) fun leftlist toks1 =>
    pbind (parse_countable_operator toks1) fun op toks2 =>
    if checkTok .OpenSquare toks2 then
      pbind (parse_formula_list fuel toks2) fun rightlist toks3 =>
      (some (.CountableVariable op leftlist rightlist), toks3)
    else
      pbind (parse_countable toks2) fun count toks3 =>
      (some (.CountableConst op leftlist count), toks3)

/-- `parse_formula_list` (parser.rs 491-514). -/
def parse_formula_list : Nat → List SymbolicBDDToken → PResult (List SymbolicBDD)
  | 0, toks => (none, toks)
  | fuel + 1, toks =>
    pbind (expectTok .OpenSquare toks) fun _ toks1 =>
    pbind (parse_formula_list_items fuel toks1) fun subforms toks2 =>
    pbind (expectTok .CloseSquare toks2) fun _ toks3 =>
    (some subforms, toks3)

/-- The `loop` inside `parse_formula_list` (parser.rs 495-509):
sub-formulas separated by commas, ending at `]` (not consumed). -/
def parse_formula_list_items :
    Nat → List SymbolicBDDToken → PResult (List SymbolicBDD)
  | 0, toks => (none, toks)
  | fuel + 1, toks =>
    if checkTok .CloseSquare toks then (some [], toks)
    else
      pbind (parse_sub_formula fuel toks) fun f toks1 =>
      if checkTok .Comma toks1 then
        pbind (expectTok .Comma toks1) fun _ toks2 =>
        pbind (parse_formula_list_items fuel toks2) fun fs toks3 =>
        (some (f :: fs), toks3)
      else (some [f], toks1)

/-- `parse_fixed_point` (parser.rs 592-613). -/
def parse_fixed_point : Nat → Bool → List SymbolicBDDToken → PResult SymbolicBDD
  | 0, _, toks => (none, toks)
  | fuel + 1, initial, toks =>
    pbind (expectTok (if initial then .GFP else .LFP) toks) fun _ toks1 =>
    pbind (parse_variable_name toks1) fun transformer_var toks2 =>
    pbind (expectTok .Hash toks2) fun _ toks3 =>
    pbind (parse_sub_formula fuel toks3) fun formula toks4 =>
    (some (.FixedPoint transformer_var initial formula), toks4)

/-- `parse_existence_quantifier` (parser.rs 615-627). -/
def parse_existence_quantifier :
    Nat → List SymbolicBDDToken → PResult SymbolicBDD
  | 0, toks => (none, toks)
  | fuel + 1, toks =>
    pbind (expectTok .Exists toks) fun _ toks1 =>
    pbind (parse_variable_list fuel toks1) fun vars toks2 =>
    pbind (expectTok .Hash toks2) fun _ toks3 =>
    pbind (parse_sub_formula fuel toks3) fun formula toks4 =>
    (some (.Quantifier .Exists vars formula), toks4)

/-- `parse_universal_quantifier` (parser.rs 629-641). -/
def parse_universal_quantifier :
    Nat → List SymbolicBDDToken → PResult SymbolicBDD
  | 0, toks => (none, toks)
  | fuel + 1, toks =>
    pbind (expectTok .Forall toks) fun _ toks1 =>
    pbind (parse_variable_list fuel toks1) fun vars toks2 =>
    pbind (expectTok .Hash toks2) fun _ toks3 =>
    pbind (parse_sub_formula fuel toks3) fun formula toks4 =>
    (some (.Quantifier .Forall vars formula), toks4)

/-- `parse_summation` (parser.rs 643-651); `Summation` stores the variable
names. -/
def parse_summation : Nat → List SymbolicBDDToken → PResult SymbolicBDD
  | 0, toks => (none, toks)
  | fuel + 1, toks =>
    pbind (expectTok .Sum toks) fun _ toks1 =>
    pbind (parse_variable_list fuel toks1) fun vars toks2 =>
    pbind (expectTok .Hash toks2) fun _ toks3 =>
    pbind (parse_sub_formula fuel toks3) fun formula toks4 =>
    (some (.Summation (vars.map (fun v => v.name)) formula), toks4)

/-- `parse_ite` (parser.rs 476-489). -/
def parse_ite : Nat → List SymbolicBDDToken → PResult SymbolicBDD
  | 0, toks => (none, toks)
  | fuel + 1, toks =>
    pbind (expectTok .If toks) fun _ toks1 =>
    pbind (parse_sub_formula fuel toks1) fun cond toks2 =>
    pbind (expectTok .Then toks2) fun _ toks3 =>
    pbind (parse_sub_formula fuel toks3) fun then_f toks4 =>
    pbind (expectTok .Else toks4) fun _ toks5 =>
    pbind (parse_sub_formula fuel toks5) fun else_f toks6 =>
    (some (.Ite cond then_f else_f), toks6)

end

/-! ### Basic reduction lemmas for the engine operations -/

theorem mk_choice_def (t : BDD) (s : Nat) (f : BDD) :
    mk_choice t s f = if t = f then t else .Choice t s f := rfl

theorem and_False_left (x : BDD) : and .False x = .False := by
  simp [and, mk_const]

theorem and_False_right (x : BDD) : and x .False = .False := by
  cases x <;> simp [and, mk_const]

theorem and_True_left (x : BDD) : and .True x = x := by
  cases x <;> simp [and, mk_const]

theorem and_True_right (x : BDD) : and x .True = x := by
  cases x <;> simp [and, mk_const]

theorem and_Choice (t1 : BDD) (va : Nat) (f1 t2 : BDD) (vb : Nat) (f2 : BDD) :
    and (.Choice t1 va f1) (.Choice t2 vb f2) =
      if va < vb then
        mk_choice (and t1 (.Choice t2 vb f2)) va (and f1 (.Choice t2 vb f2))
      else if vb < va then
        mk_choice (and t2 (.Choice t1 va f1)) vb (and f2 (.Choice t1 va f1))
      else
        mk_choice (and t1 t2) va (and f1 f2) :=
  and.eq_5 t1 va f1 t2 vb f2

theorem or_True_left (x : BDD) : or .True x = .True := by
  simp [or, mk_const]

theorem or_True_right (x : BDD) : or x .True = .True := by
  cases x <;> simp [or, mk_const]

theorem or_False_left (x : BDD) : or .False x = x := by
  cases x <;> simp [or, mk_const]

theorem or_False_right (x : BDD) : or x .False = x := by
  cases x <;> simp [or, mk_const]

theorem or_Choice (t1 : BDD) (va : Nat) (f1 t2 : BDD) (vb : Nat) (f2 : BDD) :
    or (.Choice t1 va f1) (.Choice t2 vb f2) =
      if va < vb then
        mk_choice (or t1 (.Choice t2 vb f2)) va (or f1 (.Choice t2 vb f2))
      else if vb < va then
        mk_choice (or t2 (.Choice t1 va f1)) vb (or f2 (.Choice t1 va f1))
      else
        mk_choice (or t1 t2) va (or f1 f2) :=
  or.eq_5 t1 va f1 t2 vb f2

/-! ### Preservation of the ordering and reducedness invariants -/

theorem above_mono {k j : Nat} (hkj : k ≤ j) :
    ∀ {x : BDD}, above j x = true → above k x = true := by
  intro x
  induction x with
  | False => simp [above]
  | True => simp [above]
  | Choice t s f iht ihf =>
    simp only [above, Bool.and_eq_true, decide_eq_true_eq]
    rintro ⟨⟨h1, h2⟩, h3⟩
    exact ⟨⟨lt_of_le_of_lt hkj h1, iht h2⟩, ihf h3⟩

theorem above_mk_choice {k s : Nat} {t f : BDD} (hks : k < s)
    (ht : above k t = true) (hf : above k f = true) :
    above k (mk_choice t s f) = true := by
  rw [mk_choice_def]
  by_cases h : t = f
  · simpa [h] using hf
  · simp [h, above, hks, ht, hf]

theorem inv_Choice_iff {t : BDD} {s : Nat} {f : BDD} :
    inv (.Choice t s f) = true ↔
      t ≠ f ∧ above s t = true ∧ above s f = true ∧
        inv t = true ∧ inv f = true := by
  simp [inv, and_assoc]

theorem inv_mk_choice {s : Nat} {t f : BDD} (ht : inv t = true)
    (hf : inv f = true) (hat : above s t = true) (haf : above s f = true) :
    inv (mk_choice t s f) = true := by
  rw [mk_choice_def]
  by_cases h : t = f
  · simpa [h] using hf
  · rw [if_neg h]
    exact inv_Choice_iff.mpr ⟨h, hat, haf, ht, hf⟩

theorem and_above {k : Nat} : ∀ {a b : BDD}, above k a = true →
    above k b = true → above k (and a b) = true := by
  intro a b
  induction a, b using and.induct with
  | case1 x => simp [and_False_left, above]
  | case2 x h => simp [and_False_right, above]
  | case3 b h => intro _ hb; simpa [and_True_left] using hb
  | case4 a h1 h2 => intro ha _; simpa [and_True_right] using ha
  | case5 t1 va f1 t2 vb f2 hlt ih1 ih2 =>
    intro ha hb
    rw [and_Choice, if_pos hlt]
    simp only [above, Bool.and_eq_true, decide_eq_true_eq] at ha hb
    have hb2 : above k (BDD.Choice t2 vb f2) = true := by
      simp [above, hb.1.1, hb.1.2, hb.2]
    exact above_mk_choice ha.1.1 (ih1 ha.1.2 hb2) (ih2 ha.2 hb2)
  | case6 t1 va f1 t2 vb f2 hnlt hlt ih1 ih2 =>
    intro ha hb
    rw [and_Choice, if_neg hnlt, if_pos hlt]
    simp only [above, Bool.and_eq_true, decide_eq_true_eq] at ha hb
    have ha2 : above k (BDD.Choice t1 va f1) = true := by
      simp [above, ha.1.1, ha.1.2, ha.2]
    exact above_mk_choice hb.1.1 (ih1 hb.1.2 ha2) (ih2 hb.2 ha2)
  | case7 t1 va f1 t2 vb f2 hnlt1 hnlt2 ih1 ih2 =>
    intro ha hb
    rw [and_Choice, if_neg hnlt1, if_neg hnlt2]
    simp only [above, Bool.and_eq_true, decide_eq_true_eq] at ha hb
    exact above_mk_choice ha.1.1 (ih1 ha.1.2 hb.1.2) (ih2 ha.2 hb.2)

theorem and_inv : ∀ {a b : BDD}, inv a = true → inv b = true →
    inv (and a b) = true := by
  intro a b
  induction a, b using and.induct with
  | case1 x => simp [and_False_left, inv]
  | case2 x h => simp [and_False_right, inv]
  | case3 b h => intro _ hb; simpa [and_True_left] using hb
  | case4 a h1 h2 => intro ha _; simpa [and_True_right] using ha
  | case5 t1 va f1 t2 vb f2 hlt ih1 ih2 =>
    intro ha hb
    rw [and_Choice, if_pos hlt]
    obtain ⟨hne, hat, haf, ht, hf⟩ := inv_Choice_iff.mp ha
    have hab : above va (BDD.Choice t2 vb f2) = true := by
      obtain ⟨hne2, hat2, haf2, -, -⟩ := inv_Choice_iff.mp hb
      simp only [above, Bool.and_eq_true, decide_eq_true_eq]
      exact ⟨⟨hlt, above_mono (le_of_lt hlt) hat2⟩,
        above_mono (le_of_lt hlt) haf2⟩
    exact inv_mk_choice (ih1 ht hb) (ih2 hf hb) (and_above hat hab)
      (and_above haf hab)
  | case6 t1 va f1 t2 vb f2 hnlt hlt ih1 ih2 =>
    intro ha hb
    rw [and_Choice, if_neg hnlt, if_pos hlt]
    obtain ⟨hne, hat, haf, ht, hf⟩ := inv_Choice_iff.mp hb
    have hab : above vb (BDD.Choice t1 va f1) = true := by
      obtain ⟨hne2, hat2, haf2, -, -⟩ := inv_Choice_iff.mp ha
      simp only [above, Bool.and_eq_true, decide_eq_true_eq]
      exact ⟨⟨hlt, above_mono (le_of_lt hlt) hat2⟩,
        above_mono (le_of_lt hlt) haf2⟩
    exact inv_mk_choice (ih1 ht ha) (ih2 hf ha) (and_above hat hab)
      (and_above haf hab)
  | case7 t1 va f1 t2 vb f2 hnlt1 hnlt2 ih1 ih2 =>
    intro ha hb
    rw [and_Choice, if_neg hnlt1, if_neg hnlt2]
    have hvab : va = vb := le_antisymm (le_of_not_lt hnlt2) (le_of_not_lt hnlt1)
    obtain ⟨hne, hat, haf, ht, hf⟩ := inv_Choice_iff.mp ha
    obtain ⟨hne2, hat2, haf2, ht2, hf2⟩ := inv_Choice_iff.mp hb
    subst hvab
    exact inv_mk_choice (ih1 ht ht2) (ih2 hf hf2)
      (and_above hat hat2) (and_above haf haf2)

theorem or_above {k : Nat} : ∀ {a b : BDD}, above k a = true →
    above k b = true → above k (or a b) = true := by
  intro a b
  induction a, b using or.induct with
  | case1 x => simp [or_True_left, above]
  | case2 x h => simp [or_True_right, above]
  | case3 b h => intro _ hb; simpa [or_False_left] using hb
  | case4 a h1 h2 => intro ha _; simpa [or_False_right] using ha
  | case5 t1 va f1 t2 vb f2 hlt ih1 ih2 =>
    intro ha hb
    rw [or_Choice, if_pos hlt]
    simp only [above, Bool.and_eq_true, decide_eq_true_eq] at ha hb
    have hb2 : above k (BDD.Choice t2 vb f2) = true := by
      simp [above, hb.1.1, hb.1.2, hb.2]
    exact above_mk_choice ha.1.1 (ih1 ha.1.2 hb2) (ih2 ha.2 hb2)
  | case6 t1 va f1 t2 vb f2 hnlt hlt ih1 ih2 =>
    intro ha hb
    rw [or_Choice, if_neg hnlt, if_pos hlt]
    simp only [above, Bool.and_eq_true, decide_eq_true_eq] at ha hb
    have ha2 : above k (BDD.Choice t1 va f1) = true := by
      simp [above, ha.1.1, ha.1.2, ha.2]
    exact above_mk_choice hb.1.1 (ih1 hb.1.2 ha2) (ih2 hb.2 ha2)
  | case7 t1 va f1 t2 vb f2 hnlt1 hnlt2 ih1 ih2 =>
    intro ha hb
    rw [or_Choice, if_neg hnlt1, if_neg hnlt2]
    simp only [above, Bool.and_eq_true, decide_eq_true_eq] at ha hb
    exact above_mk_choice ha.1.1 (ih1 ha.1.2 hb.1.2) (ih2 ha.2 hb.2)

theorem or_inv : ∀ {a b : BDD}, inv a = true → inv b = true →
    inv (or a b) = true := by
  intro a b
  induction a, b using or.induct with
  | case1 x => simp [or_True_left, inv]
  | case2 x h => simp [or_True_right, inv]
  | case3 b h => intro _ hb; simpa [or_False_left] using hb
  | case4 a h1 h2 => intro ha _; simpa [or_False_right] using ha
  | case5 t1 va f1 t2 vb f2 hlt ih1 ih2 =>
    intro ha hb
    rw [or_Choice, if_pos hlt]
    obtain ⟨hne, hat, haf, ht, hf⟩ := inv_Choice_iff.mp ha
    have hab : above va (BDD.Choice t2 vb f2) = true := by
      obtain ⟨hne2, hat2, haf2, -, -⟩ := inv_Choice_iff.mp hb
      simp only [above, Bool.and_eq_true, decide_eq_true_eq]
      exact ⟨⟨hlt, above_mono (le_of_lt hlt) hat2⟩,
        above_mono (le_of_lt hlt) haf2⟩
    exact inv_mk_choice (ih1 ht hb) (ih2 hf hb) (or_above hat hab)
      (or_above haf hab)
  | case6 t1 va f1 t2 vb f2 hnlt hlt ih1 ih2 =>
    intro ha hb
    rw [or_Choice, if_neg hnlt, if_pos hlt]
    obtain ⟨hne, hat, haf, ht, hf⟩ := inv_Choice_iff.mp hb
    have hab : above vb (BDD.Choice t1 va f1) = true := by
      obtain ⟨hne2, hat2, haf2, -, -⟩ := inv_Choice_iff.mp ha
      simp only [above, Bool.and_eq_true, decide_eq_true_eq]
      exact ⟨⟨hlt, above_mono (le_of_lt hlt) hat2⟩,
        above_mono (le_of_lt hlt) haf2⟩
    exact inv_mk_choice (ih1 ht ha) (ih2 hf ha) (or_above hat hab)
      (or_above haf hab)
  | case7 t1 va f1 t2 vb f2 hnlt1 hnlt2 ih1 ih2 =>
    intro ha hb
    rw [or_Choice, if_neg hnlt1, if_neg hnlt2]
    have hvab : va = vb := le_antisymm (le_of_not_lt hnlt2) (le_of_not_lt hnlt1)
    obtain ⟨hne, hat, haf, ht, hf⟩ := inv_Choice_iff.mp ha
    obtain ⟨hne2, hat2, haf2, ht2, hf2⟩ := inv_Choice_iff.mp hb
    subst hvab
    exact inv_mk_choice (ih1 ht ht2) (ih2 hf hf2)
      (or_above hat hat2) (or_above haf haf2)

theorem not_above {k : Nat} : ∀ {x : BDD}, above k x = true →
    above k (not x) = true := by
  intro x
  induction x with
  | False => intro _; simp [not, mk_const, above]
  | True => intro _; simp [not, mk_const, above]
  | Choice t s f iht ihf =>
    simp only [above, Bool.and_eq_true, decide_eq_true_eq]
    rintro ⟨⟨h1, h2⟩, h3⟩
    exact above_mk_choice h1 (iht h2) (ihf h3)

theorem not_inv : ∀ {x : BDD}, inv x = true → inv (not x) = true := by
  intro x
  induction x with
  | False => intro _; simp [not, mk_const, inv]
  | True => intro _; simp [not, mk_const, inv]
  | Choice t s f iht ihf =>
    intro hx
    obtain ⟨hne, hat, haf, ht, hf⟩ := inv_Choice_iff.mp hx
    exact inv_mk_choice (iht ht) (ihf hf) (not_above hat) (not_above haf)

theorem implies_inv {a b : BDD} (ha : inv a = true) (hb : inv b = true) :
    inv (implies a b) = true :=
  or_inv (not_inv ha) hb

theorem iteB_inv {a b c : BDD} (ha : inv a = true) (hb : inv b = true)
    (hc : inv c = true) : inv (iteB a b c) = true :=
  and_inv (implies_inv ha hb) (implies_inv (not_inv ha) hc)

theorem var_inv (s : Nat) : inv (var s) = true := by
  simp [var, mk_choice, simplify, mk_const, inv, above]

theorem var_above {k s : Nat} (h : k < s) : above k (var s) = true := by
  simp [var, mk_choice, simplify, mk_const, above, h]

theorem mk_const_inv (b : Bool) : inv (mk_const b) = true := by
  cases b <;> simp [mk_const, inv]

theorem exists_impl_above {k s : Nat} : ∀ {b : BDD}, above k b = true →
    above k (exists_impl s b) = true := by
  intro b
  induction b with
  | False => intro _; simp [exists_impl, above]
  | True => intro _; simp [exists_impl, above]
  | Choice t v f iht ihf =>
    simp only [above, Bool.and_eq_true, decide_eq_true_eq]
    rintro ⟨⟨h1, h2⟩, h3⟩
    rw [exists_impl]
    by_cases hv : v = s
    · rw [if_pos hv]
      exact or_above h2 h3
    · rw [if_neg hv]
      exact above_mk_choice h1 (iht h2) (ihf h3)

theorem exists_impl_inv {s : Nat} : ∀ {b : BDD}, inv b = true →
    inv (exists_impl s b) = true := by
  intro b
  induction b with
  | False => intro _; simp [exists_impl, inv]
  | True => intro _; simp [exists_impl, inv]
  | Choice t v f iht ihf =>
    intro hb
    obtain ⟨hne, hat, haf, ht, hf⟩ := inv_Choice_iff.mp hb
    rw [exists_impl]
    by_cases hv : v = s
    · rw [if_pos hv]
      exact or_inv ht hf
    · rw [if_neg hv]
      exact inv_mk_choice (iht ht) (ihf hf) (exists_impl_above hat)
        (exists_impl_above haf)

theorem existsQ_inv : ∀ (vs : List Nat) {b : BDD}, inv b = true →
    inv (existsQ vs b) = true := by
  intro vs
  induction vs with
  | nil => intro b hb; simpa [existsQ] using hb
  | cons v rest ih =>
    intro b hb
    rw [existsQ]
    exact exists_impl_inv (ih hb)

theorem cmp_count_inv : ∀ (branches : List BDD) (n : Int) (cmp : Int → Bool),
    (∀ f ∈ branches, inv f = true) → inv (cmp_count branches n cmp) = true := by
  intro branches
  induction branches with
  | nil => intro n cmp _; rw [cmp_count]; exact mk_const_inv _
  | cons first remainder ih =>
    intro n cmp hall
    rw [cmp_count]
    exact iteB_inv (hall first (by simp))
      (ih (n - 1) cmp (fun f hf => hall f (by simp [hf])))
      (ih n cmp (fun f hf => hall f (by simp [hf])))

theorem fp_inv {t : BDD → BDD} (ht : ∀ x, inv x = true → inv (t x) = true) :
    ∀ (fuel : Nat) {a : BDD}, inv a = true → inv (fp fuel a t) = true := by
  intro fuel
  induction fuel with
  | zero => intro a ha; simpa [fp] using ha
  | succ n ih =>
    intro a ha
    rw [fp]
    by_cases h : t a = a
    · simpa [h] using ha
    · rw [if_neg h]
      exact ih (ht a ha)

theorem model_above {k : Nat} : ∀ {a : BDD}, above k a = true →
    above k (model a) = true := by
  intro a
  induction a with
  | False => intro _; simp [model, above]
  | True => intro _; simp [model, above]
  | Choice t v f iht ihf =>
    simp only [above, Bool.and_eq_true, decide_eq_true_eq]
    rintro ⟨⟨h1, h2⟩, h3⟩
    rw [model]
    by_cases hl : model t ≠ mk_const false
    · rw [if_pos hl]
      exact and_above (iht h2) (var_above h1)
    · rw [if_neg hl]
      by_cases hr : model f ≠ mk_const false
      · rw [if_pos hr]
        refine and_above ?_ (ihf h3)
        exact not_above (var_above h1)
      · rw [if_neg hr]
        simp [mk_const, above]

theorem model_inv : ∀ {a : BDD}, inv a = true → inv (model a) = true := by
  intro a
  induction a with
  | False => intro _; simp [model, inv]
  | True => intro _; simp [model, inv]
  | Choice t v f iht ihf =>
    intro ha
    obtain ⟨hne, hat, haf, ht, hf⟩ := inv_Choice_iff.mp ha
    rw [model]
    by_cases hl : model t ≠ mk_const false
    · rw [if_pos hl]
      exact and_inv (iht ht) (var_inv v)
    · rw [if_neg hl]
      by_cases hr : model f ≠ mk_const false
      · rw [if_pos hr]
        exact and_inv (not_inv (var_inv v)) (ihf hf)
      · rw [if_neg hr]
        exact mk_const_inv false

/-! ### Boolean semantics of the engine operations -/

theorem eval_mk_const (σ : Nat → Bool) (b : Bool) : eval σ (mk_const b) = b := by
  cases b <;> rfl

theorem eval_mk_choice (σ : Nat → Bool) (t : BDD) (s : Nat) (f : BDD) :
    eval σ (mk_choice t s f) = if σ s then eval σ t else eval σ f := by
  rw [mk_choice_def]
  by_cases h : t = f
  · subst h; simp
  · rw [if_neg h, eval]

theorem eval_var (σ : Nat → Bool) (s : Nat) : eval σ (var s) = σ s := by
  rw [var, eval_mk_choice]
  cases h : σ s <;> simp [mk_const, eval]

theorem and_eval (σ : Nat → Bool) : ∀ (a b : BDD),
    eval σ (and a b) = (eval σ a && eval σ b) := by
  intro a b
  induction a, b using and.induct with
  | case1 x => simp [and_False_left, eval]
  | case2 x h => simp [and_False_right, eval]
  | case3 b h => simp [and_True_left, eval]
  | case4 a h1 h2 => simp [and_True_right, eval]
  | case5 t1 va f1 t2 vb f2 hlt ih1 ih2 =>
    rw [and_Choice, if_pos hlt, eval_mk_choice, ih1, ih2]
    show _ = (eval σ (BDD.Choice t1 va f1) && _)
    by_cases h : σ va <;> simp [eval, h]
  | case6 t1 va f1 t2 vb f2 hnlt hlt ih1 ih2 =>
    rw [and_Choice, if_neg hnlt, if_pos hlt, eval_mk_choice, ih1, ih2]
    show _ = (_ && eval σ (BDD.Choice t2 vb f2))
    by_cases h : σ vb <;> simp [eval, h, Bool.and_comm]
  | case7 t1 va f1 t2 vb f2 hnlt1 hnlt2 ih1 ih2 =>
    have hvab : va = vb := le_antisymm (le_of_not_lt hnlt2) (le_of_not_lt hnlt1)
    subst hvab
    rw [and_Choice, if_neg hnlt1, if_neg hnlt2, eval_mk_choice, ih1, ih2]
    show _ = (eval σ (BDD.Choice t1 va f1) && eval σ (BDD.Choice t2 va f2))
    by_cases h : σ va <;> simp [eval, h]

theorem or_eval (σ : Nat → Bool) : ∀ (a b : BDD),
    eval σ (or a b) = (eval σ a || eval σ b) := by
  intro a b
  induction a, b using or.induct with
  | case1 x => simp [or_True_left, eval]
  | case2 x h => simp [or_True_right, eval]
  | case3 b h => simp [or_False_left, eval]
  | case4 a h1 h2 => simp [or_False_right, eval]
  | case5 t1 va f1 t2 vb f2 hlt ih1 ih2 =>
    rw [or_Choice, if_pos hlt, eval_mk_choice, ih1, ih2]
    show _ = (eval σ (BDD.Choice t1 va f1) || _)
    by_cases h : σ va <;> simp [eval, h]
  | case6 t1 va f1 t2 vb f2 hnlt hlt ih1 ih2 =>
    rw [or_Choice, if_neg hnlt, if_pos hlt, eval_mk_choice, ih1, ih2]
    show _ = (_ || eval σ (BDD.Choice t2 vb f2))
    by_cases h : σ vb <;> simp [eval, h, Bool.or_comm]
  | case7 t1 va f1 t2 vb f2 hnlt1 hnlt2 ih1 ih2 =>
    have hvab : va = vb := le_antisymm (le_of_not_lt hnlt2) (le_of_not_lt hnlt1)
    subst hvab
    rw [or_Choice, if_neg hnlt1, if_neg hnlt2, eval_mk_choice, ih1, ih2]
    show _ = (eval σ (BDD.Choice t1 va f1) || eval σ (BDD.Choice t2 va f2))
    by_cases h : σ va <;> simp [eval, h]

theorem not_eval (σ : Nat → Bool) : ∀ (a : BDD),
    eval σ (not a) = !eval σ a := by
  intro a
  induction a with
  | False => simp [not, mk_const, eval]
  | True => simp [not, mk_const, eval]
  | Choice t s f iht ihf =>
    rw [not, eval_mk_choice, iht, ihf, eval]
    by_cases h : σ s <;> simp [h]

theorem implies_eval (σ : Nat → Bool) (a b : BDD) :
    eval σ (implies a b) = (!eval σ a || eval σ b) := by
  rw [implies, or_eval, not_eval]

theorem iteB_eval (σ : Nat → Bool) (a b c : BDD) :
    eval σ (iteB a b c) = if eval σ a then eval σ b else eval σ c := by
  rw [iteB, and_eval, implies_eval, implies_eval, not_eval]
  by_cases h : eval σ a <;> simp [h]

theorem trueCount_nil (σ : Nat → Bool) : trueCount σ [] = 0 := rfl

theorem trueCount_cons (σ : Nat → Bool) (f : BDD) (fs : List BDD) :
    trueCount σ (f :: fs) =
      (if eval σ f then 1 else 0) + trueCount σ fs := by
  by_cases h : eval σ f
  all_goals simp [trueCount, List.filter, h]
  all_goals try omega

theorem cmp_count_eval (σ : Nat → Bool) : ∀ (branches : List BDD) (n : Int)
    (cmp : Int → Bool),
    eval σ (cmp_count branches n cmp) = cmp (n - trueCount σ branches) := by
  intro branches
  induction branches with
  | nil => intro n cmp; rw [cmp_count, eval_mk_const, trueCount_nil]; norm_num
  | cons first remainder ih =>
    intro n cmp
    rw [cmp_count, iteB_eval, ih, ih, trueCount_cons]
    by_cases h : eval σ first
    · rw [if_pos h, if_pos h]
      congr 1
      omega
    · rw [if_neg h, if_neg h]
      congr 1
      omega

/-! ### Canonicity: distinct canonical BDDs denote distinct functions -/

theorem eval_update {k : Nat} {c : Bool} (σ : Nat → Bool) : ∀ {x : BDD},
    above k x = true → eval (Function.update σ k c) x = eval σ x := by
  intro x
  induction x with
  | False => intro _; rfl
  | True => intro _; rfl
  | Choice t s f iht ihf =>
    simp only [above, Bool.and_eq_true, decide_eq_true_eq]
    rintro ⟨⟨h1, h2⟩, h3⟩
    rw [eval, eval, Function.update_noteq (Nat.ne_of_gt h1) c σ, iht h2, ihf h3]

theorem sat_of_ne_False : ∀ {a : BDD}, inv a = true → a ≠ .False →
    ∃ σ, eval σ a = true := by
  intro a
  induction a with
  | False => intro _ h; exact absurd rfl h
  | True => intro _ _; exact ⟨fun _ => true, rfl⟩
  | Choice t s f iht ihf =>
    intro ha _
    obtain ⟨hne, hat, haf, ht, hf⟩ := inv_Choice_iff.mp ha
    by_cases ht0 : t = .False
    · have hf0 : f ≠ .False := fun h => hne (ht0.trans h.symm)
      obtain ⟨σ, hσ⟩ := ihf hf hf0
      refine ⟨Function.update σ s false, ?_⟩
      rw [eval, Function.update_same]
      simpa [eval_update σ haf] using hσ
    · obtain ⟨σ, hσ⟩ := iht ht ht0
      refine ⟨Function.update σ s true, ?_⟩
      rw [eval, Function.update_same]
      simpa [eval_update σ hat] using hσ

theorem falsify_of_ne_True : ∀ {a : BDD}, inv a = true → a ≠ .True →
    ∃ σ, eval σ a = false := by
  intro a
  induction a with
  | False => intro _ _; exact ⟨fun _ => true, rfl⟩
  | True => intro _ h; exact absurd rfl h
  | Choice t s f iht ihf =>
    intro ha _
    obtain ⟨hne, hat, haf, ht, hf⟩ := inv_Choice_iff.mp ha
    by_cases ht0 : t = .True
    · have hf0 : f ≠ .True := fun h => hne (ht0.trans h.symm)
      obtain ⟨σ, hσ⟩ := ihf hf hf0
      refine ⟨Function.update σ s false, ?_⟩
      rw [eval, Function.update_same]
      simpa [eval_update σ haf] using hσ
    · obtain ⟨σ, hσ⟩ := iht ht ht0
      refine ⟨Function.update σ s true, ?_⟩
      rw [eval, Function.update_same]
      simpa [eval_update σ hat] using hσ

theorem canonical_le : ∀ (n : Nat) (a b : BDD), sizeOf a + sizeOf b ≤ n →
    inv a = true → inv b = true → (∀ σ, eval σ a = eval σ b) → a = b := by
  intro n
  induction n with
  | zero =>
    intro a b hle _ _ _
    exfalso
    have h0 : 0 < sizeOf a := by cases a <;> simp
    omega
  | succ n ih =>
    intro a b hle ha hb hsem
    cases a with
    | False =>
      cases b with
      | False => rfl
      | True => exact absurd (hsem (fun _ => true)) (by simp [eval])
      | Choice t2 v2 f2 =>
        exfalso
        obtain ⟨σ, hσ⟩ := sat_of_ne_False hb (by simp)
        have hc := hsem σ
        rw [hσ] at hc
        simp [eval] at hc
    | True =>
      cases b with
      | True => rfl
      | False => exact absurd (hsem (fun _ => true)) (by simp [eval])
      | Choice t2 v2 f2 =>
        exfalso
        obtain ⟨σ, hσ⟩ := falsify_of_ne_True hb (by simp)
        have hc := hsem σ
        rw [hσ] at hc
        simp [eval] at hc
    | Choice t1 v1 f1 =>
      cases b with
      | False =>
        exfalso
        obtain ⟨σ, hσ⟩ := sat_of_ne_False ha (by simp)
        have hc := hsem σ
        rw [hσ] at hc
        simp [eval] at hc
      | True =>
        exfalso
        obtain ⟨σ, hσ⟩ := falsify_of_ne_True ha (by simp)
        have hc := hsem σ
        rw [hσ] at hc
        simp [eval] at hc
      | Choice t2 v2 f2 =>
        obtain ⟨hne1, hat1, haf1, hit1, hif1⟩ := inv_Choice_iff.mp ha
        obtain ⟨hne2, hat2, haf2, hit2, hif2⟩ := inv_Choice_iff.mp hb
        simp only [BDD.Choice.sizeOf_spec] at hle
        rcases lt_trichotomy v1 v2 with hlt | heq | hgt
        · exfalso
          have hb_ab : above v1 (BDD.Choice t2 v2 f2) = true := by
            simp only [above, Bool.and_eq_true, decide_eq_true_eq]
            exact ⟨⟨hlt, above_mono hlt.le hat2⟩, above_mono hlt.le haf2⟩
          have hkey : ∀ σ, eval σ t1 = eval σ f1 := by
            intro σ
            have e5 := hsem (Function.update σ v1 true)
            have e6 := hsem (Function.update σ v1 false)
            rw [eval] at e5 e6
            rw [Function.update_same] at e5 e6
            simp only [if_true] at e5
            simp only [Bool.false_eq_true, if_false] at e6
            calc eval σ t1
                = eval (Function.update σ v1 true) t1 := (eval_update σ hat1).symm
              _ = eval σ (BDD.Choice t2 v2 f2) := by rw [e5, eval_update σ hb_ab]
              _ = eval (Function.update σ v1 false) f1 := by
                  rw [e6]; exact (eval_update σ hb_ab).symm
              _ = eval σ f1 := eval_update σ haf1
          exact hne1 (ih t1 f1 (by omega) hit1 hif1 hkey)
        · subst heq
          have hkeyT : ∀ σ, eval σ t1 = eval σ t2 := by
            intro σ
            have e5 := hsem (Function.update σ v1 true)
            rw [eval, eval] at e5
            rw [Function.update_same] at e5
            simp only [if_true] at e5
            calc eval σ t1
                = eval (Function.update σ v1 true) t1 := (eval_update σ hat1).symm
              _ = eval (Function.update σ v1 true) t2 := e5
              _ = eval σ t2 := eval_update σ hat2
          have hkeyF : ∀ σ, eval σ f1 = eval σ f2 := by
            intro σ
            have e6 := hsem (Function.update σ v1 false)
            rw [eval, eval] at e6
            rw [Function.update_same] at e6
            simp only [Bool.false_eq_true, if_false] at e6
            calc eval σ f1
                = eval (Function.update σ v1 false) f1 := (eval_update σ haf1).symm
              _ = eval (Function.update σ v1 false) f2 := e6
              _ = eval σ f2 := eval_update σ haf2
          rw [ih t1 t2 (by omega) hit1 hit2 hkeyT,
            ih f1 f2 (by omega) hif1 hif2 hkeyF]
        · exfalso
          have hsem2 : ∀ σ, eval σ (BDD.Choice t2 v2 f2) = eval σ (BDD.Choice t1 v1 f1) :=
            fun σ => (hsem σ).symm
          have ha_ab : above v2 (BDD.Choice t1 v1 f1) = true := by
            simp only [above, Bool.and_eq_true, decide_eq_true_eq]
            exact ⟨⟨hgt, above_mono hgt.le hat1⟩, above_mono hgt.le haf1⟩
          have hkey : ∀ σ, eval σ t2 = eval σ f2 := by
            intro σ
            have e5 := hsem2 (Function.update σ v2 true)
            have e6 := hsem2 (Function.update σ v2 false)
            rw [eval] at e5 e6
            rw [Function.update_same] at e5 e6
            simp only [if_true] at e5
            simp only [Bool.false_eq_true, if_false] at e6
            calc eval σ t2
                = eval (Function.update σ v2 true) t2 := (eval_update σ hat2).symm
              _ = eval σ (BDD.Choice t1 v1 f1) := by rw [e5, eval_update σ ha_ab]
              _ = eval (Function.update σ v2 false) f2 := by
                  rw [e6]; exact (eval_update σ ha_ab).symm
              _ = eval σ f2 := eval_update σ haf2
          exact hne2 (ih t2 f2 (by omega) hit2 hif2 hkey)

/-- Canonicity: two invariant-satisfying BDDs denoting the same boolean
function are structurally equal. -/
theorem canonical {a b : BDD} (ha : inv a = true) (hb : inv b = true)
    (hsem : ∀ σ, eval σ a = eval σ b) : a = b :=
  canonical_le (sizeOf a + sizeOf b) a b le_rfl ha hb hsem

theorem eq_True_of_taut {a : BDD} (ha : inv a = true)
    (h : ∀ σ, eval σ a = true) : a = .True :=
  canonical ha (by simp [inv]) (fun σ => by rw [h σ, eval])

theorem eq_False_of_unsat {a : BDD} (ha : inv a = true)
    (h : ∀ σ, eval σ a = false) : a = .False :=
  canonical ha (by simp [inv]) (fun σ => by rw [h σ, eval])

/-! ### Model extraction -/

theorem model_sound (σ : Nat → Bool) : ∀ {a : BDD},
    eval σ (model a) = true → eval σ a = true := by
  intro a
  induction a with
  | False => intro h; exact h
  | True => intro h; exact h
  | Choice t v f iht ihf =>
    rw [model]
    by_cases hl : model t ≠ mk_const false
    · rw [if_pos hl, and_eval]
      intro h
      rw [Bool.and_eq_true] at h
      rw [eval_var] at h
      rw [eval, if_pos h.2]
      exact iht h.1
    · rw [if_neg hl]
      by_cases hr : model f ≠ mk_const false
      · rw [if_pos hr, and_eval]
        intro h
        rw [Bool.and_eq_true, not_eval, eval_var] at h
        have hv : σ v = false := by
          cases hσv : σ v
          · rfl
          · rw [hσv] at h; exact absurd h.1 (by simp)
        rw [eval, hv]
        simpa using ihf h.2
      · rw [if_neg hr]
        intro h
        rw [eval_mk_const] at h
        exact absurd h (by simp)

theorem model_ne_False : ∀ {a : BDD}, inv a = true → a ≠ .False →
    model a ≠ .False := by
  intro a
  induction a with
  | False => intro _ h; exact absurd rfl h
  | True => intro _ _; simp [model]
  | Choice t v f iht ihf =>
    intro ha _
    obtain ⟨hne, hat, haf, hit, hif⟩ := inv_Choice_iff.mp ha
    rw [model]
    by_cases hl : model t ≠ mk_const false
    · rw [if_pos hl]
      obtain ⟨σ, hσ⟩ := sat_of_ne_False (model_inv hit) hl
      intro hcontra
      have hev : eval (Function.update σ v true) (and (model t) (var v)) = true := by
        rw [and_eval, eval_var, Function.update_same,
          eval_update σ (model_above hat), hσ]
        rfl
      rw [hcontra] at hev
      exact absurd hev (by simp [eval])
    · rw [if_neg hl]
      by_cases hr : model f ≠ mk_const false
      · rw [if_pos hr]
        obtain ⟨σ, hσ⟩ := sat_of_ne_False (model_inv hif) hr
        intro hcontra
        have hev : eval (Function.update σ v false)
            (and (not (var v)) (model f)) = true := by
          rw [and_eval, not_eval, eval_var, Function.update_same,
            eval_update σ (model_above haf), hσ]
          rfl
        rw [hcontra] at hev
        exact absurd hev (by simp [eval])
      · exfalso
        have ht0 : t = .False := by
          by_contra hcon
          exact (iht hit hcon) (not_ne_iff.mp hl)
        have hf0 : f = .False := by
          by_contra hcon
          exact (ihf hif hcon) (not_ne_iff.mp hr)
        exact hne (ht0.trans hf0.symm)

/-! ### The §8 reachable-handle property via `node_list` -/

theorem inv_iff_nodes : ∀ {a : BDD},
    inv a = true ↔ ∀ x ∈ node_list a, choiceOk x := by
  intro a
  induction a with
  | False =>
    simp only [node_list, List.mem_singleton]
    constructor
    · intro _ x hx t0 s0 f0 heq
      rw [hx] at heq
      exact absurd heq (by simp)
    · intro _; rfl
  | True =>
    simp only [node_list, List.mem_singleton]
    constructor
    · intro _ x hx t0 s0 f0 heq
      rw [hx] at heq
      exact absurd heq (by simp)
    · intro _; rfl
  | Choice t s f iht ihf =>
    constructor
    · intro h x hx
      obtain ⟨hne, hat, haf, hit, hif⟩ := inv_Choice_iff.mp h
      rw [node_list] at hx
      simp only [List.append_assoc, List.mem_append, List.mem_singleton] at hx
      rcases hx with hx | hx | hx
      · exact (iht.mp hit) x hx
      · subst hx
        intro t0 s0 f0 heq
        cases heq
        exact ⟨hne, hat, haf⟩
      · exact (ihf.mp hif) x hx
    · intro h
      have hroot := h (BDD.Choice t s f) (by rw [node_list]; simp)
      obtain ⟨hne, hat, haf⟩ := hroot t s f rfl
      refine inv_Choice_iff.mpr ⟨hne, hat, haf, iht.mpr ?_, ihf.mpr ?_⟩
      · intro x hx
        exact h x (by rw [node_list]; simp [hx])
      · intro x hx
        exact h x (by rw [node_list]; simp [hx])

/-! ### Claim theorems for the engine -/

/-- C1: for every handle reachable from any root returned by an engine
operation (and, or, not, exists, mk_choice, var, cardinality, fp, model):
if the node is `Choice H s L` then `H ≠ L` and every `Choice` reachable
from `H` or from `L` tests a variable whose id is strictly greater than the
id of `s`.  Inputs are canonical handles (`inv`) and the fixed-point
transformer preserves canonicity; only the `mk_choice` conjunct carries the
documented ordering precondition of spec §4.2, as a premise of that
conjunct alone. -/
theorem engine_ops_canonical (a b : BDD) (s : Nat) (vs : List Nat)
    (fs : List BDD) (k : Int) (fuel : Nat) (t : BDD → BDD)
    (ha : inv a = true) (hb : inv b = true)
    (hfs : ∀ f ∈ fs, inv f = true)
    (ht : ∀ x, inv x = true → inv (t x) = true) :
    (∀ x ∈ node_list (and a b), choiceOk x) ∧
    (∀ x ∈ node_list (or a b), choiceOk x) ∧
    (∀ x ∈ node_list (not a), choiceOk x) ∧
    (∀ x ∈ node_list (existsQ vs a), choiceOk x) ∧
    (above s a = true → above s b = true →
      ∀ x ∈ node_list (mk_choice a s b), choiceOk x) ∧
    (∀ x ∈ node_list (var s), choiceOk x) ∧
    (∀ x ∈ node_list (aln fs k), choiceOk x) ∧
    (∀ x ∈ node_list (amn fs k), choiceOk x) ∧
    (∀ x ∈ node_list (exn fs k), choiceOk x) ∧
    (∀ x ∈ node_list (fp fuel a t), choiceOk x) ∧
    (∀ x ∈ node_list (model a), choiceOk x) :=
  ⟨inv_iff_nodes.mp (and_inv ha hb),
   inv_iff_nodes.mp (or_inv ha hb),
   inv_iff_nodes.mp (not_inv ha),
   inv_iff_nodes.mp (existsQ_inv vs ha),
   fun hsa hsb => inv_iff_nodes.mp (inv_mk_choice ha hb hsa hsb),
   inv_iff_nodes.mp (var_inv s),
   inv_iff_nodes.mp (by rw [aln]; exact cmp_count_inv fs k _ hfs),
   inv_iff_nodes.mp (by rw [amn]; exact cmp_count_inv fs k _ hfs),
   inv_iff_nodes.mp (by rw [exn]; exact cmp_count_inv fs k _ hfs),
   inv_iff_nodes.mp (fp_inv ht fuel ha),
   inv_iff_nodes.mp (model_inv ha)⟩

/-- Witness for C1: applied at canonical inputs testing variable id 0 (where
no ordering side condition holds or is needed for the apply conjuncts), and
at the `mk_choice` conjunct with its ordering premise discharged. -/
theorem engine_ops_canonical_witness :
    (inv (var 0) = true ∧ (∀ f ∈ [var 0], inv f = true)) ∧
    (∀ x ∈ node_list (and (var 0) (var 0)), choiceOk x) ∧
    (∀ x ∈ node_list (model (var 0)), choiceOk x) ∧
    (above 0 (var 1) = true ∧ above 0 BDD.False = true ∧
      ∀ x ∈ node_list (mk_choice (var 1) 0 BDD.False), choiceOk x) :=
  ⟨⟨by decide, by decide⟩,
   (engine_ops_canonical (var 0) (var 0) 0 [0] [var 0] 1 1 id (by decide)
     (by decide) (by decide) (fun x hx => hx)).1,
   (engine_ops_canonical (var 0) (var 0) 0 [0] [var 0] 1 1 id (by decide)
     (by decide) (by decide) (fun x hx => hx)).2.2.2.2.2.2.2.2.2.2,
   ⟨by decide, by decide,
    (engine_ops_canonical (var 1) BDD.False 0 [0] [var 1] 1 1 id (by decide)
      (by decide) (by decide) (fun x hx => hx)).2.2.2.2.1 (by decide)
      (by decide)⟩⟩

/-- C2: `mk_choice high s low` returns `high` when `high = low`; otherwise
it returns the handle stored for the triple when present, leaving the table
unchanged, and inserts a fresh node only when absent; consequently a second
call with equal inputs on the resulting environment returns the same handle
and leaves the environment unchanged. -/
theorem mk_choice_hash_consing (env : BDDEnv) (h l : BDD) (s : Nat) :
    (h = l → (env.mk_choice h s l).1 = h) ∧
    (h ≠ l →
      (env.mk_choice h s l).1 = .Choice h s l ∧
      (BDD.Choice h s l ∈ env.nodes →
        env.mk_choice h s l = (.Choice h s l, env)) ∧
      (BDD.Choice h s l ∉ env.nodes →
        (env.mk_choice h s l).2.nodes = .Choice h s l :: env.nodes)) ∧
    (env.mk_choice h s l).2.mk_choice h s l = env.mk_choice h s l := by
  have unfold_mk : ∀ (e : BDDEnv),
      e.mk_choice h s l =
        if simplify (.Choice h s l) ∈ e.nodes
        then (simplify (.Choice h s l), e)
        else (simplify (.Choice h s l), ⟨simplify (.Choice h s l) :: e.nodes⟩) :=
    fun _ => rfl
  refine ⟨?_, ?_, ?_⟩
  · intro heq
    subst heq
    have hs : simplify (BDD.Choice h s h) = h := by simp [simplify]
    rw [unfold_mk, hs]
    split <;> rfl
  · intro hne
    have hins : simplify (.Choice h s l) = .Choice h s l := by
      simp [simplify, hne]
    refine ⟨?_, ?_, ?_⟩
    · rw [unfold_mk, hins]
      split <;> rfl
    · intro hmem
      rw [unfold_mk, hins, if_pos hmem]
    · intro hmem
      rw [unfold_mk, hins, if_neg hmem]
  · by_cases hmem : simplify (.Choice h s l) ∈ env.nodes
    · rw [unfold_mk env, if_pos hmem]
      show env.mk_choice h s l = _
      rw [unfold_mk env, if_pos hmem]
    · rw [unfold_mk env, if_neg hmem]
      show BDDEnv.mk_choice ⟨simplify (.Choice h s l) :: env.nodes⟩ h s l = _
      rw [unfold_mk ⟨simplify (.Choice h s l) :: env.nodes⟩]
      rw [if_pos (List.mem_cons_self _ _)]

/-- Witness for C2 on the fresh environment and the two terminals. -/
theorem mk_choice_hash_consing_witness :
    BDD.True ≠ BDD.False ∧
    (BDDEnv.new.mk_choice .True 0 .False).1 = .Choice .True 0 .False :=
  ⟨by decide,
   ((mk_choice_hash_consing BDDEnv.new .True .False 0).2.1 (by decide)).1⟩

/-- C3: `model a` is the false terminal iff `a` is the false terminal
(the input is unsatisfiable), and for satisfiable `a`,
`implies (model a) a` is the true terminal. -/
theorem model_correct (a : BDD) (ha : inv a = true) :
    (model a = .False ↔ a = .False) ∧
    (a ≠ .False → implies (model a) a = .True) := by
  constructor
  · constructor
    · intro h
      by_contra hne
      exact model_ne_False ha hne h
    · intro h
      subst h
      rfl
  · intro _
    refine eq_True_of_taut (implies_inv (model_inv ha) ha) ?_
    intro σ
    rw [implies_eval]
    cases hm : eval σ (model a)
    · rfl
    · simp [model_sound σ hm]

/-- Witness for C3 at the canonical BDD of a single variable. -/
theorem model_correct_witness :
    inv (var 0) = true ∧
    ((model (var 0) = .False ↔ var 0 = .False) ∧
      (var 0 ≠ .False → implies (model (var 0)) (var 0) = .True)) :=
  ⟨by decide, model_correct (var 0) (by decide)⟩

/-- C4: the directly implemented exactly-k recursion agrees with the
conjunction of at-most-k and at-least-k: `exn fs k = and (amn fs k)
(aln fs k)` for canonical branch handles. -/
theorem exn_eq_and_amn_aln (fs : List BDD) (k : Int)
    (hfs : ∀ f ∈ fs, inv f = true) :
    exn fs k = and (amn fs k) (aln fs k) := by
  refine canonical (by rw [exn]; exact cmp_count_inv fs k _ hfs)
    (and_inv (by rw [amn]; exact cmp_count_inv fs k _ hfs)
      (by rw [aln]; exact cmp_count_inv fs k _ hfs)) ?_
  intro σ
  rw [exn, amn, aln, and_eval, cmp_count_eval, cmp_count_eval, cmp_count_eval]
  by_cases h0 : k - trueCount σ fs = 0
  · simp [h0]
  · have h1 : ¬(0 ≤ k - trueCount σ fs) ∨ ¬(k - trueCount σ fs ≤ 0) := by
      omega
    rcases h1 with h1 | h1 <;> simp [h0, h1, ge_iff_le]

/-- Witness for C4 on two variable handles. -/
theorem exn_eq_and_amn_aln_witness :
    (∀ f ∈ [var 0, var 1], inv f = true) ∧
    exn [var 0, var 1] 1 = and (amn [var 0, var 1] 1) (aln [var 0, var 1] 1) :=
  ⟨by decide, exn_eq_and_amn_aln [var 0, var 1] 1 (by decide)⟩

/-- C5 counterexample: `a = Choice ⊥ 0 ⊤` (the BDD of `¬x₀`) forces
variable 0 in the claim's sense — `a` is satisfiable and every satisfying
assignment gives variable 0 the same value (false) — yet `infer` reports it
unbound (`bound = false`). -/
theorem infer_claim_counterexample :
    (∃ σ, eval σ (BDD.Choice .False 0 .True) = true) ∧
    (∀ σ, eval σ (BDD.Choice .False 0 .True) = true → σ 0 = false) ∧
    not (var 0) = BDD.Choice .False 0 .True ∧
    (infer (BDD.Choice .False 0 .True) 0).1 = false := by
  refine ⟨⟨fun _ => false, rfl⟩, ?_, ?_, ?_⟩
  · intro σ h
    rw [eval] at h
    cases hσ : σ 0
    · rfl
    · rw [hσ] at h
      simp only [if_true] at h
      exact absurd h (by simp [eval])
  · simp [not, var, mk_choice, simplify, mk_const]
  · simp [infer, implies, not, var, mk_choice, simplify, mk_const, or]

/-- C5 amended: `infer a v` never returns `(true, false)`: it returns
`(true, true)` exactly when `implies a (var v)` is a tautology, i.e. when
every satisfying assignment of `a` makes `v` true; variables forced to
false are reported unbound, and an unsatisfiable `a` reports
`(true, true)`. -/
theorem infer_characterization (a : BDD) (v : Nat) (ha : inv a = true) :
    (infer a v = (true, true) ∨ infer a v = (false, false)) ∧
    (infer a v = (true, true) ↔ ∀ σ, eval σ a = true → σ v = true) := by
  have hff_inv : inv (implies a (var v)) = true := implies_inv ha (var_inv v)
  have hff_ne : implies a (var v) ≠ .False := by
    intro hcontra
    have h1 : eval (fun _ => true) (implies a (var v)) = true := by
      rw [implies_eval, eval_var]
      simp
    rw [hcontra] at h1
    exact absurd h1 (by simp [eval])
  have hiff : implies a (var v) = .True ↔
      (∀ σ, eval σ a = true → σ v = true) := by
    constructor
    · intro h σ hσ
      have he := congrArg (eval σ) h
      rw [implies_eval, eval_var] at he
      rw [hσ] at he
      simpa [eval] using he
    · intro h
      refine eq_True_of_taut hff_inv ?_
      intro σ
      rw [implies_eval, eval_var]
      cases hσ : eval σ a
      · rfl
      · simp [h σ hσ]
  rcases hshape : implies a (var v) with _ | _ | ⟨t, s, f⟩
  · exact absurd hshape hff_ne
  · refine ⟨Or.inl ?_, ?_, fun _ => ?_⟩
    · simp [infer, hshape]
    · intro _
      exact hiff.mp hshape
    · simp [infer, hshape]
  · refine ⟨Or.inr ?_, ?_, ?_⟩
    · simp [infer, hshape]
    · intro hcontra
      simp [infer, hshape] at hcontra
    · intro h
      have hT := hiff.mpr h
      rw [hshape] at hT
      exact absurd hT (by simp)

/-- Witness for C5's amended theorem at the BDD of a single variable. -/
theorem infer_characterization_witness :
    inv (var 0) = true ∧
    ((infer (var 0) 0 = (true, true) ∨ infer (var 0) 0 = (false, false)) ∧
      (infer (var 0) 0 = (true, true) ↔
        ∀ σ, eval σ (var 0) = true → σ 0 = true)) :=
  ⟨by decide, infer_characterization (var 0) 0 (by decide)⟩

/-- C6 counterexample: at `a = Choice ⊤ 0 ⊥` (the BDD of variable 0) the
code computes `not a = Choice ⊥ 0 ⊤`, which differs from the
subtree-swapping `mk_choice (not low) 0 (not high) = mk_choice (not ⊥) 0
(not ⊤)` that the claim prescribes. -/
theorem not_swap_counterexample :
    not (BDD.Choice .True 0 .False) ≠
      mk_choice (not .False) 0 (not .True) := by decide

/-- C6 amended: `not` maps terminals to the opposite terminal and negates
the two subtrees in place — `not (Choice h s l) = mk_choice (not h) s
(not l)` — and semantically complements the function. -/
theorem not_spec (h l : BDD) (s : Nat) (a : BDD) (σ : Nat → Bool) :
    not BDD.True = BDD.False ∧ not BDD.False = BDD.True ∧
    not (BDD.Choice h s l) = mk_choice (not h) s (not l) ∧
    eval σ (not a) = !eval σ a :=
  ⟨rfl, rfl, rfl, not_eval σ a⟩

/-! ### Substitution and free variables in the symbolic AST -/

theorem scOr_eq_some_false {a : Option Bool} {b : Unit → Option Bool} :
    scOr a b = some false ↔ a = some false ∧ b () = some false := by
  cases a with
  | none => simp [scOr]
  | some v => cases v <;> simp [scOr]

theorem scOr_isSome {a : Option Bool} {b : Unit → Option Bool}
    (ha : a.isSome = true) (hb : (b ()).isSome = true) :
    (scOr a b).isSome = true := by
  cases a with
  | none => exact absurd ha (by simp)
  | some v => cases v <;> simp [scOr, hb]

theorem replace_var_of_not_free :
    ∀ (f : SymbolicBDD) (w : NamedSymbol) (r : SymbolicBDD),
      var_is_free f w = some false → replace_var f w r = f := by
  refine replace_var.induct
    (fun f w r => var_is_free f w = some false → replace_var f w r = f)
    (fun l w r =>
      var_is_free_any l w = some false → replace_var_list l w r = l)
    ?_ ?_ ?_ ?_ ?_ ?_ ?_ ?_ ?_ ?_ ?_ ?_ ?_ ?_ ?_ ?_ ?_ ?_ ?_
  · intro w r v hv h
    simp [var_is_free, hv] at h
  · intro w r v hv _
    simp [replace_var, hv]
  · intro w r q vs f hq _
    simp [replace_var, hq]
  · intro w r q vs f hq ih h
    rw [var_is_free, if_neg hq] at h
    simp [replace_var, hq, ih h]
  · intro w r v i f hv _
    simp [replace_var, hv]
  · intro w r v i f hv ih h
    rw [var_is_free, if_neg hv] at h
    simp [replace_var, hv, ih h]
  · intro w r a b c ih1 ih2 ih3 h
    rw [var_is_free] at h
    obtain ⟨h1, h23⟩ := scOr_eq_some_false.mp h
    obtain ⟨h2, h3⟩ := scOr_eq_some_false.mp h23
    simp [replace_var, ih1 h1, ih2 h2, ih3 h3]
  · intro w r f ih h
    rw [var_is_free] at h
    simp [replace_var, ih h]
  · intro w r op l rr ih1 ih2 h
    rw [var_is_free] at h
    obtain ⟨h1, h2⟩ := scOr_eq_some_false.mp h
    simp [replace_var, ih1 h1, ih2 h2]
  · intro w r op n sz ih h
    rw [var_is_free] at h
    simp [replace_var, ih h]
  · intro w r op l rr ih1 ih2 h
    rw [var_is_free] at h
    obtain ⟨h1, h2⟩ := scOr_eq_some_false.mp h
    simp [replace_var, ih1 h1, ih2 h2]
  · intro w r _
    rfl
  · intro w r _
    rfl
  · intro w r t _
    rfl
  · intro w r vs f ih h
    rw [var_is_free] at h
    simp [replace_var, ih h]
  · intro w r d _
    rfl
  · intro w r d f ih h
    rw [var_is_free] at h
    simp [replace_var, ih h]
  · intro w r _
    rfl
  · intro w r f rest ih1 ih2 h
    rw [var_is_free_any] at h
    obtain ⟨h1, h2⟩ := scOr_eq_some_false.mp h
    simp [replace_var_list, ih1 h1, ih2 h2]

theorem freeOcc_replace_var :
    ∀ (f : SymbolicBDD) (w : NamedSymbol) (r : SymbolicBDD),
      freeOcc r w = false → freeOcc (replace_var f w r) w = false := by
  refine replace_var.induct
    (fun f w r => freeOcc r w = false → freeOcc (replace_var f w r) w = false)
    (fun l w r =>
      freeOcc r w = false → freeOccAny (replace_var_list l w r) w = false)
    ?_ ?_ ?_ ?_ ?_ ?_ ?_ ?_ ?_ ?_ ?_ ?_ ?_ ?_ ?_ ?_ ?_ ?_ ?_
  · intro w r v hv h
    simpa [replace_var, hv] using h
  · intro w r v hv _
    simp only [Bool.not_eq_true] at hv
    simp [replace_var, freeOcc, hv]
  · intro w r q vs f hq _
    simp [replace_var, freeOcc, hq]
  · intro w r q vs f hq ih h
    simp only [Bool.not_eq_true] at hq
    simp [replace_var, freeOcc, hq, ih h]
  · intro w r v i f hv _
    simp [replace_var, freeOcc, hv]
  · intro w r v i f hv ih h
    simp only [Bool.not_eq_true] at hv
    simp [replace_var, freeOcc, hv, ih h]
  · intro w r a b c ih1 ih2 ih3 h
    simp [replace_var, freeOcc, ih1 h, ih2 h, ih3 h]
  · intro w r f ih h
    simp [replace_var, freeOcc, ih h]
  · intro w r op l rr ih1 ih2 h
    simp [replace_var, freeOcc, ih1 h, ih2 h]
  · intro w r op n sz ih h
    simp [replace_var, freeOcc, ih h]
  · intro w r op l rr ih1 ih2 h
    simp [replace_var, freeOcc, ih1 h, ih2 h]
  · intro w r _
    simp [replace_var, freeOcc]
  · intro w r _
    simp [replace_var, freeOcc]
  · intro w r t _
    simp [replace_var, freeOcc]
  · intro w r vs f ih h
    simp [replace_var, freeOcc, ih h]
  · intro w r d _
    simp [replace_var, freeOcc]
  · intro w r d f ih h
    simp [replace_var, freeOcc, ih h]
  · intro w r _
    simp [replace_var_list, freeOccAny]
  · intro w r f rest ih1 ih2 h
    simp [replace_var_list, freeOccAny, ih1 h, ih2 h]

theorem var_is_free_total :
    ∀ (f : SymbolicBDD) (w : NamedSymbol), noSubtree f = true →
      (var_is_free f w).isSome = true := by
  refine var_is_free.induct
    (fun f w => noSubtree f = true → (var_is_free f w).isSome = true)
    (fun l w => noSubtreeAll l = true → (var_is_free_any l w).isSome = true)
    ?_ ?_ ?_ ?_ ?_ ?_ ?_ ?_ ?_ ?_ ?_ ?_ ?_ ?_ ?_ ?_ ?_ ?_
  · intro v w _
    simp [var_is_free]
  · intro q vs f w hq _
    simp [var_is_free, hq]
  · intro q vs f w hq ih h
    rw [noSubtree] at h
    rw [var_is_free, if_neg hq]
    exact ih h
  · intro a b c w ih1 ih2 ih3 h
    rw [noSubtree] at h
    simp only [Bool.and_eq_true] at h
    rw [var_is_free]
    exact scOr_isSome (ih1 h.1.1) (scOr_isSome (ih2 h.1.2) (ih3 h.2))
  · intro f w ih h
    rw [noSubtree] at h
    rw [var_is_free]
    exact ih h
  · intro op a b w ih1 ih2 h
    rw [noSubtree] at h
    simp only [Bool.and_eq_true] at h
    rw [var_is_free]
    exact scOr_isSome (ih1 h.1) (ih2 h.2)
  · intro op sub sz w ih h
    rw [noSubtree] at h
    rw [var_is_free]
    exact ih h
  · intro op l r w ih1 ih2 h
    rw [noSubtree] at h
    simp only [Bool.and_eq_true] at h
    rw [var_is_free]
    exact scOr_isSome (ih1 h.1) (ih2 h.2)
  · intro v i f w hv _
    simp [var_is_free, hv]
  · intro v i f w hv ih h
    rw [noSubtree] at h
    rw [var_is_free, if_neg hv]
    exact ih h
  · intro t w h
    exact absurd h (by simp [noSubtree])
  · intro w _
    simp [var_is_free]
  · intro w _
    simp [var_is_free]
  · intro vs f w ih h
    rw [noSubtree] at h
    rw [var_is_free]
    exact ih h
  · intro d w _
    simp [var_is_free]
  · intro d f w ih h
    rw [noSubtree] at h
    rw [var_is_free]
    exact ih h
  · intro w _
    simp [var_is_free_any]
  · intro f rest w ih1 ih2 h
    rw [noSubtreeAll] at h
    simp only [Bool.and_eq_true] at h
    rw [var_is_free_any]
    exact scOr_isSome (ih1 h.1) (ih2 h.2)

/-- C7: `replace_var` substitutes exactly the free occurrences of the
fixed-point variable and is capture-avoiding: a quantifier whose variable
list contains the variable, and a nested fixed point rebinding it, are
returned unchanged; a formula with no free occurrence is unchanged; and
after substituting a variable-free replacement (such as the `Subtree` leaf
used by the evaluator) the variable no longer occurs free. -/
theorem replace_var_capture_avoiding (f r : SymbolicBDD) (w : NamedSymbol)
    (x : BDD) :
    (∀ q vs body, vs.any (fun v => v.id == w.id) = true →
      replace_var (.Quantifier q vs body) w r = .Quantifier q vs body) ∧
    (∀ (v : NamedSymbol) (i : Bool) body, (v.id == w.id) = true →
      replace_var (.FixedPoint v i body) w r = .FixedPoint v i body) ∧
    (var_is_free f w = some false → replace_var f w r = f) ∧
    freeOcc (replace_var f w (.Subtree x)) w = false := by
  refine ⟨?_, ?_, replace_var_of_not_free f w r, ?_⟩
  · intro q vs body hq
    simp [replace_var, hq]
  · intro v i body hv
    simp [replace_var, hv]
  · exact freeOcc_replace_var f w (.Subtree x) rfl

/-- Witness for C7 on concrete formulas: a quantifier binding the variable
is untouched, a formula without the variable is untouched, and substituting
a subtree leaf for a free occurrence removes it. -/
theorem replace_var_capture_avoiding_witness :
    ([(⟨"x", 0⟩ : NamedSymbol)].any
        (fun v => v.id == (⟨"x", 0⟩ : NamedSymbol).id) = true ∧
      replace_var
        (.Quantifier .Exists [⟨"x", 0⟩] (.Var ⟨"x", 0⟩)) ⟨"x", 0⟩ .True =
        .Quantifier .Exists [⟨"x", 0⟩] (.Var ⟨"x", 0⟩)) ∧
    (var_is_free (.Var ⟨"y", 1⟩) ⟨"x", 0⟩ = some false ∧
      replace_var (.Var ⟨"y", 1⟩) ⟨"x", 0⟩ .True = .Var ⟨"y", 1⟩) ∧
    freeOcc (replace_var (.Var ⟨"x", 0⟩) ⟨"x", 0⟩ (.Subtree .True))
      ⟨"x", 0⟩ = false :=
  ⟨⟨by decide,
    (replace_var_capture_avoiding (.Var ⟨"y", 1⟩) .True ⟨"x", 0⟩ .True).1
      .Exists [⟨"x", 0⟩] (.Var ⟨"x", 0⟩) (by decide)⟩,
   ⟨rfl,
    (replace_var_capture_avoiding (.Var ⟨"y", 1⟩) .True ⟨"x", 0⟩ .True).2.2.1
      rfl⟩,
   (replace_var_capture_avoiding (.Var ⟨"x", 0⟩) .True ⟨"x", 0⟩ .True).2.2.2⟩

/-! ### Lexer keyword classification and truth-value parsing -/

/-- C8 counterexample: the tokenizer classifies the word `any` as an
ordinary identifier (here receiving the fresh id 0 in an empty lexer
state), not as the existential-quantifier token. -/
theorem tokenize_any_counterexample :
    (tokenize_identifier ⟨[], 0⟩ "any").1 = .Ident ⟨"any", 0⟩ ∧
    (tokenize_identifier ⟨[], 0⟩ "any").1 ≠ .Exists := by
  exact ⟨rfl, by decide⟩

/-- C8 amended: the lexer maps `exists` to the existential-quantifier token
and both `forall` and `all` to the universal one, while `any` is lexed as
an ordinary identifier named "any" (with a fresh or previously assigned
id), in every lexer state. -/
theorem tokenize_quantifier_keywords (st : LexState) :
    (tokenize_identifier st "exists").1 = .Exists ∧
    (tokenize_identifier st "forall").1 = .Forall ∧
    (tokenize_identifier st "all").1 = .Forall ∧
    ∃ ns, (tokenize_identifier st "any").1 = .Ident ns ∧ ns.name = "any" := by
  refine ⟨rfl, rfl, rfl, ?_⟩
  cases hl : st.variable_indexes.lookup "any" with
  | some id => exact ⟨⟨"any", id⟩, by simp [tokenize_identifier, hl], rfl⟩
  | none =>
    exact ⟨⟨"any", st.var_id_counter⟩, by simp [tokenize_identifier, hl], rfl⟩

theorem matches_True_iff (s : String) :
    TruthTableEntry.matches .True s = true ↔
      s ∈ (["true", "True", "t", "T", "1"] : List String) := by
  simp [TruthTableEntry.matches, or_assoc]

theorem matches_False_iff (s : String) :
    TruthTableEntry.matches .False s = true ↔
      s ∈ (["false", "False", "f", "F", "0"] : List String) := by
  simp [TruthTableEntry.matches, or_assoc]

theorem matches_Any_iff (s : String) :
    TruthTableEntry.matches .Any s = true ↔
      s ∈ (["any", "Any", "a", "A", "*"] : List String) := by
  simp [TruthTableEntry.matches, or_assoc]

theorem from_str_eq (s : String) :
    TruthTableEntry.from_str s =
      if TruthTableEntry.matches .True s then some .True
      else if TruthTableEntry.matches .False s then some .False
      else if TruthTableEntry.matches .Any s then some .Any
      else none := by
  by_cases hT : TruthTableEntry.matches .True s <;>
    by_cases hF : TruthTableEntry.matches .False s <;>
      by_cases hA : TruthTableEntry.matches .Any s <;>
        simp [TruthTableEntry.from_str, TruthTableEntry.variants,
          List.find?, hT, hF, hA]

theorem from_str_bdd_eq (s : String) :
    TruthTableEntry.from_str_bdd s =
      if TruthTableEntry.matches .True s then some .True
      else if TruthTableEntry.matches .False s then some .False
      else if (s == "any" || s == "Any" || s == "a" || s == "A") then some .Any
      else none := rfl

theorem false_not_true (s : String)
    (h : s ∈ (["false", "False", "f", "F", "0"] : List String)) :
    s ∉ (["true", "True", "t", "T", "1"] : List String) := by
  simp only [List.mem_cons, List.not_mem_nil, or_false] at h
  rcases h with rfl | rfl | rfl | rfl | rfl <;> decide

theorem any_not_true (s : String)
    (h : s ∈ (["any", "Any", "a", "A", "*"] : List String)) :
    s ∉ (["true", "True", "t", "T", "1"] : List String) := by
  simp only [List.mem_cons, List.not_mem_nil, or_false] at h
  rcases h with rfl | rfl | rfl | rfl | rfl <;> decide

theorem any_not_false (s : String)
    (h : s ∈ (["any", "Any", "a", "A", "*"] : List String)) :
    s ∉ (["false", "False", "f", "F", "0"] : List String) := by
  simp only [List.mem_cons, List.not_mem_nil, or_false] at h
  rcases h with rfl | rfl | rfl | rfl | rfl <;> decide

/-- C9 counterexample: the duplicate truth-value parser in bdd.rs rejects
`*` with a parse error, where the claim demands `Any`; the truth_table.rs
parser accepts it. -/
theorem from_str_bdd_star_counterexample :
    TruthTableEntry.from_str_bdd "*" = none ∧
    TruthTableEntry.from_str "*" = some .Any := ⟨rfl, rfl⟩

/-- C9 amended: `TruthTableEntry::from_str` of truth_table.rs parses
exactly as the claim states — `true|True|t|T|1` to True, `false|False|f|F|0`
to False, `any|Any|a|A|*` to Any, an error otherwise — while the older
duplicate in bdd.rs agrees on every string except `*`, which it rejects. -/
theorem from_str_characterization (s : String) :
    (TruthTableEntry.from_str s = some .True ↔
      s ∈ (["true", "True", "t", "T", "1"] : List String)) ∧
    (TruthTableEntry.from_str s = some .False ↔
      s ∈ (["false", "False", "f", "F", "0"] : List String)) ∧
    (TruthTableEntry.from_str s = some .Any ↔
      s ∈ (["any", "Any", "a", "A", "*"] : List String)) ∧
    (s ∉ (["true", "True", "t", "T", "1"] : List String) →
      s ∉ (["false", "False", "f", "F", "0"] : List String) →
      s ∉ (["any", "Any", "a", "A", "*"] : List String) →
      TruthTableEntry.from_str s = none) ∧
    (s ≠ "*" →
      TruthTableEntry.from_str_bdd s = TruthTableEntry.from_str s) ∧
    TruthTableEntry.from_str_bdd "*" = none := by
  refine ⟨?_, ?_, ?_, ?_, ?_, rfl⟩
  · rw [from_str_eq]
    constructor
    · intro h
      by_cases h1 : TruthTableEntry.matches .True s
      · exact (matches_True_iff s).mp h1
      · exfalso
        rw [if_neg h1] at h
        by_cases h2 : TruthTableEntry.matches .False s
        · rw [if_pos h2] at h
          exact absurd h (by simp)
        · rw [if_neg h2] at h
          by_cases h3 : TruthTableEntry.matches .Any s
          · rw [if_pos h3] at h
            exact absurd h (by simp)
          · rw [if_neg h3] at h
            exact absurd h (by simp)
    · intro hs
      rw [if_pos ((matches_True_iff s).mpr hs)]
  · rw [from_str_eq]
    constructor
    · intro h
      by_cases h1 : TruthTableEntry.matches .True s
      · rw [if_pos h1] at h
        exact absurd h (by simp)
      · rw [if_neg h1] at h
        by_cases h2 : TruthTableEntry.matches .False s
        · exact (matches_False_iff s).mp h2
        · exfalso
          rw [if_neg h2] at h
          by_cases h3 : TruthTableEntry.matches .Any s
          · rw [if_pos h3] at h
            exact absurd h (by simp)
          · rw [if_neg h3] at h
            exact absurd h (by simp)
    · intro hs
      have h1 : ¬TruthTableEntry.matches .True s = true := fun hc =>
        false_not_true s hs ((matches_True_iff s).mp hc)
      rw [if_neg h1, if_pos ((matches_False_iff s).mpr hs)]
  · rw [from_str_eq]
    constructor
    · intro h
      by_cases h1 : TruthTableEntry.matches .True s
      · rw [if_pos h1] at h
        exact absurd h (by simp)
      · rw [if_neg h1] at h
        by_cases h2 : TruthTableEntry.matches .False s
        · rw [if_pos h2] at h
          exact absurd h (by simp)
        · rw [if_neg h2] at h
          by_cases h3 : TruthTableEntry.matches .Any s
          · exact (matches_Any_iff s).mp h3
          · exfalso
            rw [if_neg h3] at h
            exact absurd h (by simp)
    · intro hs
      have h1 : ¬TruthTableEntry.matches .True s = true := fun hc =>
        any_not_true s hs ((matches_True_iff s).mp hc)
      have h2 : ¬TruthTableEntry.matches .False s = true := fun hc =>
        any_not_false s hs ((matches_False_iff s).mp hc)
      rw [if_neg h1, if_neg h2, if_pos ((matches_Any_iff s).mpr hs)]
  · intro hT hF hA
    rw [from_str_eq,
      if_neg (fun hc => hT ((matches_True_iff s).mp hc)),
      if_neg (fun hc => hF ((matches_False_iff s).mp hc)),
      if_neg (fun hc => hA ((matches_Any_iff s).mp hc))]
  · intro hs
    rw [from_str_eq, from_str_bdd_eq]
    have hstar : (s == "*") = false := by
      simp [hs]
    have hAny : TruthTableEntry.matches .Any s =
        (s == "any" || s == "Any" || s == "a" || s == "A") := by
      simp only [TruthTableEntry.matches, hstar, Bool.or_false]
    rw [hAny]

/-- Witness for C9's amended theorem, applying it at `s = "1"` and at
`s = "x"` (discharging the not-a-truth-value hypotheses there). -/
theorem from_str_characterization_witness :
    TruthTableEntry.from_str "1" = some .True ∧
    ("x" ∉ (["true", "True", "t", "T", "1"] : List String) ∧
      TruthTableEntry.from_str "x" = none) := by
  refine ⟨(from_str_characterization "1").1.mpr (by decide), by decide, ?_⟩
  exact (from_str_characterization "x").2.2.2.1 (by decide) (by decide)
    (by decide)

/-! ### The parser never produces `Subtree` leaves -/

theorem pbind_eq_some {α β : Type} {x : PResult α}
    {g : α → List SymbolicBDDToken → PResult β} {b : β}
    {rest : List SymbolicBDDToken} (h : pbind x g = (some b, rest)) :
    ∃ a toks1, x = (some a, toks1) ∧ g a toks1 = (some b, rest) := by
  obtain ⟨xo, xt⟩ := x
  cases xo with
  | some a => exact ⟨a, xt, rfl, h⟩
  | none => simp [pbind] at h

theorem presult_some_inj {α : Type} {a b : α} {t r : List SymbolicBDDToken}
    (h : ((some a, t) : PResult α) = (some b, r)) : a = b ∧ t = r :=
  ⟨Option.some.inj (congrArg Prod.fst h), congrArg Prod.snd h⟩

theorem parse_noSubtree_all : ∀ fuel : Nat,
    (∀ toks f rest, parse_formula fuel toks = (some f, rest) →
      noSubtree f = true) ∧
    (∀ toks f rest, parse_sub_formula fuel toks = (some f, rest) →
      noSubtree f = true) ∧
    (∀ toks f rest, parse_simple_sub_formula fuel toks = (some f, rest) →
      noSubtree f = true) ∧
    (∀ toks f rest, parse_negation fuel toks = (some f, rest) →
      noSubtree f = true) ∧
    (∀ toks f rest, parse_parentized_formula fuel toks = (some f, rest) →
      noSubtree f = true) ∧
    (∀ toks f rest, parse_countable_formula fuel toks = (some f, rest) →
      noSubtree f = true) ∧
    (∀ toks fs rest, parse_formula_list fuel toks = (some fs, rest) →
      noSubtreeAll fs = true) ∧
    (∀ toks fs rest, parse_formula_list_items fuel toks = (some fs, rest) →
      noSubtreeAll fs = true) ∧
    (∀ i toks f rest, parse_fixed_point fuel i toks = (some f, rest) →
      noSubtree f = true) ∧
    (∀ toks f rest, parse_existence_quantifier fuel toks = (some f, rest) →
      noSubtree f = true) ∧
    (∀ toks f rest, parse_universal_quantifier fuel toks = (some f, rest) →
      noSubtree f = true) ∧
    (∀ toks f rest, parse_summation fuel toks = (some f, rest) →
      noSubtree f = true) ∧
    (∀ toks f rest, parse_ite fuel toks = (some f, rest) →
      noSubtree f = true) := by
  intro fuel
  induction fuel with
  | zero =>
    refine ⟨?_, ?_, ?_, ?_, ?_, ?_, ?_, ?_, ?_, ?_, ?_, ?_, ?_⟩ <;>
      intro toks f rest h <;>
      first
        | simp [parse_formula] at h
        | simp [parse_sub_formula] at h
        | simp [parse_simple_sub_formula] at h
        | simp [parse_negation] at h
        | simp [parse_parentized_formula] at h
        | simp [parse_countable_formula] at h
        | simp [parse_formula_list] at h
        | simp [parse_formula_list_items] at h
        | (intro h2; simp [parse_fixed_point] at h2)
        | simp [parse_existence_quantifier] at h
        | simp [parse_universal_quantifier] at h
        | simp [parse_summation] at h
        | simp [parse_ite] at h
  | succ fuel ih =>
    obtain ⟨ihF, ihS, ihSS, ihN, ihP, ihC, ihL, ihLI, ihFP, ihE, ihU,
      ihSum, ihI⟩ := ih
    refine ⟨?_, ?_, ?_, ?_, ?_, ?_, ?_, ?_, ?_, ?_, ?_, ?_, ?_⟩
    · -- parse_formula
      intro toks f rest h
      simp only [parse_formula] at h
      obtain ⟨a, t1, h1, h2⟩ := pbind_eq_some h
      obtain ⟨u, t2, h3, h4⟩ := pbind_eq_some h2
      obtain ⟨rfl, rfl⟩ := presult_some_inj h4
      exact ihS toks a t1 h1
    · -- parse_sub_formula
      intro toks f rest h
      simp only [parse_sub_formula] at h
      obtain ⟨left, t1, h1, h2⟩ := pbind_eq_some h
      by_cases hb : peek_is_binary_operator t1
      · rw [if_pos hb] at h2
        obtain ⟨op, t2, h3, h4⟩ := pbind_eq_some h2
        obtain ⟨right, t3, h5, h6⟩ := pbind_eq_some h4
        obtain ⟨rfl, rfl⟩ := presult_some_inj h6
        rw [noSubtree]
        simp [ihSS toks left t1 h1, ihS t2 right t3 h5]
      · rw [if_neg hb] at h2
        obtain ⟨rfl, rfl⟩ := presult_some_inj h2
        exact ihSS toks left t1 h1
    · -- parse_simple_sub_formula
      intro toks f rest h
      cases toks with
      | nil =>
        simp only [parse_simple_sub_formula] at h
        exact absurd h (by simp)
      | cons tk toksr =>
        cases tk
        all_goals simp only [parse_simple_sub_formula] at h
        all_goals try exact absurd h (by simp)
        · -- Ident
          obtain ⟨name, t1, h1, h2⟩ := pbind_eq_some h
          by_cases hcp : checkTok .OpenParen t1
          · rw [if_pos hcp] at h2
            obtain ⟨u, t2, h3, h4⟩ := pbind_eq_some h2
            obtain ⟨dc, t3, h5, h6⟩ := pbind_eq_some h4
            obtain ⟨u2, t4, h7, h8⟩ := pbind_eq_some h6
            by_cases hrw : checkTok .Rewrite t4
            · rw [if_pos hrw] at h8
              obtain ⟨u3, t5, h9, h10⟩ := pbind_eq_some h8
              obtain ⟨sub, t6, h11, h12⟩ := pbind_eq_some h10
              obtain ⟨rfl, rfl⟩ := presult_some_inj h12
              rw [noSubtree]
              exact ihS t5 sub t6 h11
            · rw [if_neg hrw] at h8
              obtain ⟨rfl, rfl⟩ := presult_some_inj h8
              rfl
          · rw [if_neg hcp] at h2
            obtain ⟨rfl, rfl⟩ := presult_some_inj h2
            rfl
        · -- Not
          exact ihN _ f rest h
        · -- If
          exact ihI _ f rest h
        · -- Exists
          exact ihE _ f rest h
        · -- Forall
          exact ihU _ f rest h
        · -- Sum
          exact ihSum _ f rest h
        · -- OpenParen
          exact ihP _ f rest h
        · -- OpenSquare
          exact ihC _ f rest h
        · -- False
          obtain ⟨u, t1, h1, h2⟩ := pbind_eq_some h
          obtain ⟨rfl, rfl⟩ := presult_some_inj h2
          rfl
        · -- True
          obtain ⟨u, t1, h1, h2⟩ := pbind_eq_some h
          obtain ⟨rfl, rfl⟩ := presult_some_inj h2
          rfl
        · -- LFP
          exact ihFP false _ f rest h
        · -- GFP
          exact ihFP true _ f rest h
    · -- parse_negation
      intro toks f rest h
      simp only [parse_negation] at h
      obtain ⟨u, t1, h1, h2⟩ := pbind_eq_some h
      rcases hps : parse_simple_sub_formula fuel t1 with ⟨o, t2⟩
      rw [hps] at h2
      cases o with
      | some sf =>
        simp only [] at h2
        obtain ⟨rfl, rfl⟩ := presult_some_inj h2
        rw [noSubtree]
        exact ihSS t1 sf t2 hps
      | none =>
        simp only [] at h2
        obtain ⟨f2, t3, h3, h4⟩ := pbind_eq_some h2
        obtain ⟨rfl, rfl⟩ := presult_some_inj h4
        rw [noSubtree]
        exact ihS t2 f2 t3 h3
    · -- parse_parentized_formula
      intro toks f rest h
      simp only [parse_parentized_formula] at h
      obtain ⟨u, t1, h1, h2⟩ := pbind_eq_some h
      obtain ⟨sub, t2, h3, h4⟩ := pbind_eq_some h2
      obtain ⟨u2, t3, h5, h6⟩ := pbind_eq_some h4
      obtain ⟨rfl, rfl⟩ := presult_some_inj h6
      exact ihS t1 sub t2 h3
    · -- parse_countable_formula
      intro toks f rest h
      simp only [parse_countable_formula] at h
      obtain ⟨leftl, t1, h1, h2⟩ := pbind_eq_some h
      obtain ⟨op, t2, h3, h4⟩ := pbind_eq_some h2
      by_cases hsq : checkTok .OpenSquare t2
      · rw [if_pos hsq] at h4
        obtain ⟨rightl, t3, h5, h6⟩ := pbind_eq_some h4
        obtain ⟨rfl, rfl⟩ := presult_some_inj h6
        rw [noSubtree]
        simp [ihL toks leftl t1 h1, ihL t2 rightl t3 h5]
      · rw [if_neg hsq] at h4
        obtain ⟨cnt, t3, h5, h6⟩ := pbind_eq_some h4
        obtain ⟨rfl, rfl⟩ := presult_some_inj h6
        rw [noSubtree]
        exact ihL toks leftl t1 h1
    · -- parse_formula_list
      intro toks fs rest h
      simp only [parse_formula_list] at h
      obtain ⟨u, t1, h1, h2⟩ := pbind_eq_some h
      obtain ⟨items, t2, h3, h4⟩ := pbind_eq_some h2
      obtain ⟨u2, t3, h5, h6⟩ := pbind_eq_some h4
      obtain ⟨rfl, rfl⟩ := presult_some_inj h6
      exact ihLI t1 items t2 h3
    · -- parse_formula_list_items
      intro toks fs rest h
      simp only [parse_formula_list_items] at h
      by_cases hcs : checkTok .CloseSquare toks
      · rw [if_pos hcs] at h
        obtain ⟨rfl, rfl⟩ := presult_some_inj h
        rfl
      · rw [if_neg hcs] at h
        obtain ⟨f0, t1, h1, h2⟩ := pbind_eq_some h
        by_cases hcm : checkTok .Comma t1
        · rw [if_pos hcm] at h2
          obtain ⟨u, t2, h3, h4⟩ := pbind_eq_some h2
          obtain ⟨fs2, t3, h5, h6⟩ := pbind_eq_some h4
          obtain ⟨rfl, rfl⟩ := presult_some_inj h6
          rw [noSubtreeAll]
          simp [ihS toks f0 t1 h1, ihLI t2 fs2 t3 h5]
        · rw [if_neg hcm] at h2
          obtain ⟨rfl, rfl⟩ := presult_some_inj h2
          rw [noSubtreeAll]
          simp [ihS toks f0 t1 h1, noSubtreeAll]
    · -- parse_fixed_point
      intro i toks f rest h
      simp only [parse_fixed_point] at h
      obtain ⟨u, t1, h1, h2⟩ := pbind_eq_some h
      obtain ⟨v, t2, h3, h4⟩ := pbind_eq_some h2
      obtain ⟨u2, t3, h5, h6⟩ := pbind_eq_some h4
      obtain ⟨body, t4, h7, h8⟩ := pbind_eq_some h6
      obtain ⟨rfl, rfl⟩ := presult_some_inj h8
      rw [noSubtree]
      exact ihS t3 body t4 h7
    · -- parse_existence_quantifier
      intro toks f rest h
      simp only [parse_existence_quantifier] at h
      obtain ⟨u, t1, h1, h2⟩ := pbind_eq_some h
      obtain ⟨vars, t2, h3, h4⟩ := pbind_eq_some h2
      obtain ⟨u2, t3, h5, h6⟩ := pbind_eq_some h4
      obtain ⟨body, t4, h7, h8⟩ := pbind_eq_some h6
      obtain ⟨rfl, rfl⟩ := presult_some_inj h8
      rw [noSubtree]
      exact ihS t3 body t4 h7
    · -- parse_universal_quantifier
      intro toks f rest h
      simp only [parse_universal_quantifier] at h
      obtain ⟨u, t1, h1, h2⟩ := pbind_eq_some h
      obtain ⟨vars, t2, h3, h4⟩ := pbind_eq_some h2
      obtain ⟨u2, t3, h5, h6⟩ := pbind_eq_some h4
      obtain ⟨body, t4, h7, h8⟩ := pbind_eq_some h6
      obtain ⟨rfl, rfl⟩ := presult_some_inj h8
      rw [noSubtree]
      exact ihS t3 body t4 h7
    · -- parse_summation
      intro toks f rest h
      simp only [parse_summation] at h
      obtain ⟨u, t1, h1, h2⟩ := pbind_eq_some h
      obtain ⟨vars, t2, h3, h4⟩ := pbind_eq_some h2
      obtain ⟨u2, t3, h5, h6⟩ := pbind_eq_some h4
      obtain ⟨body, t4, h7, h8⟩ := pbind_eq_some h6
      obtain ⟨rfl, rfl⟩ := presult_some_inj h8
      rw [noSubtree]
      exact ihS t3 body t4 h7
    · -- parse_ite
      intro toks f rest h
      simp only [parse_ite] at h
      obtain ⟨u, t1, h1, h2⟩ := pbind_eq_some h
      obtain ⟨c, t2, h3, h4⟩ := pbind_eq_some h2
      obtain ⟨u2, t3, h5, h6⟩ := pbind_eq_some h4
      obtain ⟨tb, t4, h7, h8⟩ := pbind_eq_some h6
      obtain ⟨u3, t5, h9, h10⟩ := pbind_eq_some h8
      obtain ⟨eb, t6, h11, h12⟩ := pbind_eq_some h10
      obtain ⟨rfl, rfl⟩ := presult_some_inj h12
      rw [noSubtree]
      simp [ihS t1 c t2 h3, ihS t3 tb t4 h7, ihS t5 eb t6 h11]

/-- C10: every formula the recursive-descent parser produces from a token
stream is free of `Subtree` leaves, so the free-variable computation
`var_is_free` — whose `Subtree` branch is `unimplemented!()` — is defined
on it for every variable, and `ParsedFormula::new` never aborts while
computing the free-variable set. -/
theorem parser_output_no_subtree (fuel : Nat)
    (toks rest : List SymbolicBDDToken) (f : SymbolicBDD) (w : NamedSymbol)
    (h : parse_formula fuel toks = (some f, rest)) :
    noSubtree f = true ∧ (var_is_free f w).isSome = true := by
  have hn := (parse_noSubtree_all fuel).1 toks f rest h
  exact ⟨hn, var_is_free_total f w hn⟩

/-- Witness for C10: a concrete successful parse of the token stream for
the formula `a`. -/
theorem parser_output_no_subtree_witness :
    parse_formula 10 [.Ident ⟨"a", 0⟩, .Eof] = (some (.Var ⟨"a", 0⟩), []) ∧
    (noSubtree (.Var (⟨"a", 0⟩ : NamedSymbol)) = true ∧
      (var_is_free (.Var ⟨"a", 0⟩) ⟨"a", 0⟩).isSome = true) :=
  ⟨rfl, parser_output_no_subtree 10 [.Ident ⟨"a", 0⟩, .Eof] []
    (.Var ⟨"a", 0⟩) ⟨"a", 0⟩ rfl⟩

end Rsbdd
